import Mathlib

/-!
Verification of the QR-code file-transfer protocol (sender `boardcaster.py`,
receiver `receiver.py`).  The transfer core is shallowly embedded: bytes are
natural numbers below 256, the JSON payloads exchanged through the visual
channel are modelled by an explicit `Json` value type (the wire
serialization is Python's `json` library, modelled here by a small parser at
the character level where a claim needs it), and the receiver loop is a step
function over an explicit state record, with wall-clock instants as
rationals.
-/

namespace QRT

/-- Model of a Python/JSON value as produced by `json.loads` and consumed by
the receiver.  Numbers are restricted to integers: every number appearing in
the protocol payloads is an integer. -/
inductive Json where
  | null
  | bool (b : Bool)
  | int (n : Int)
  | str (s : List Char)
  | arr (xs : List Json)
  | obj (kvs : List (List Char × Json))

mutual

/-- Decidable equality for `Json` (spelled out because the nested lists defeat
the automatic derivation). -/
def Json.decEq : (a b : Json) → Decidable (a = b)
  | .null, .null => isTrue rfl
  | .bool a, .bool b =>
    if h : a = b then isTrue (by rw [h])
    else isFalse (by intro hh; cases hh; exact h rfl)
  | .int a, .int b =>
    if h : a = b then isTrue (by rw [h])
    else isFalse (by intro hh; cases hh; exact h rfl)
  | .str a, .str b =>
    if h : a = b then isTrue (by rw [h])
    else isFalse (by intro hh; cases hh; exact h rfl)
  | .arr xs, .arr ys =>
    match Json.decEqList xs ys with
    | isTrue h => isTrue (by rw [h])
    | isFalse h => isFalse (by intro hh; cases hh; exact h rfl)
  | .obj xs, .obj ys =>
    match Json.decEqObj xs ys with
    | isTrue h => isTrue (by rw [h])
    | isFalse h => isFalse (by intro hh; cases hh; exact h rfl)
  | .null, .bool _ => isFalse (by intro hh; cases hh)
  | .null, .int _ => isFalse (by intro hh; cases hh)
  | .null, .str _ => isFalse (by intro hh; cases hh)
  | .null, .arr _ => isFalse (by intro hh; cases hh)
  | .null, .obj _ => isFalse (by intro hh; cases hh)
  | .bool _, .null => isFalse (by intro hh; cases hh)
  | .bool _, .int _ => isFalse (by intro hh; cases hh)
  | .bool _, .str _ => isFalse (by intro hh; cases hh)
  | .bool _, .arr _ => isFalse (by intro hh; cases hh)
  | .bool _, .obj _ => isFalse (by intro hh; cases hh)
  | .int _, .null => isFalse (by intro hh; cases hh)
  | .int _, .bool _ => isFalse (by intro hh; cases hh)
  | .int _, .str _ => isFalse (by intro hh; cases hh)
  | .int _, .arr _ => isFalse (by intro hh; cases hh)
  | .int _, .obj _ => isFalse (by intro hh; cases hh)
  | .str _, .null => isFalse (by intro hh; cases hh)
  | .str _, .bool _ => isFalse (by intro hh; cases hh)
  | .str _, .int _ => isFalse (by intro hh; cases hh)
  | .str _, .arr _ => isFalse (by intro hh; cases hh)
  | .str _, .obj _ => isFalse (by intro hh; cases hh)
  | .arr _, .null => isFalse (by intro hh; cases hh)
  | .arr _, .bool _ => isFalse (by intro hh; cases hh)
  | .arr _, .int _ => isFalse (by intro hh; cases hh)
  | .arr _, .str _ => isFalse (by intro hh; cases hh)
  | .arr _, .obj _ => isFalse (by intro hh; cases hh)
  | .obj _, .null => isFalse (by intro hh; cases hh)
  | .obj _, .bool _ => isFalse (by intro hh; cases hh)
  | .obj _, .int _ => isFalse (by intro hh; cases hh)
  | .obj _, .str _ => isFalse (by intro hh; cases hh)
  | .obj _, .arr _ => isFalse (by intro hh; cases hh)

/-- Decidable equality for lists of `Json`. -/
def Json.decEqList : (a b : List Json) → Decidable (a = b)
  | [], [] => isTrue rfl
  | [], _ :: _ => isFalse (by intro hh; cases hh)
  | _ :: _, [] => isFalse (by intro hh; cases hh)
  | x :: xs, y :: ys =>
    match Json.decEq x y with
    | isTrue h1 =>
      match Json.decEqList xs ys with
      | isTrue h2 => isTrue (by rw [h1, h2])
      | isFalse h2 => isFalse (by intro hh; cases hh; exact h2 rfl)
    | isFalse h1 => isFalse (by intro hh; cases hh; exact h1 rfl)

/-- Decidable equality for `Json` objects' key-value lists. -/
def Json.decEqObj : (a b : List (List Char × Json)) → Decidable (a = b)
  | [], [] => isTrue rfl
  | [], _ :: _ => isFalse (by intro hh; cases hh)
  | _ :: _, [] => isFalse (by intro hh; cases hh)
  | (k1, v1) :: xs, (k2, v2) :: ys =>
    if hk : k1 = k2 then
      match Json.decEq v1 v2 with
      | isTrue h1 =>
        match Json.decEqObj xs ys with
        | isTrue h2 => isTrue (by rw [hk, h1, h2])
        | isFalse h2 => isFalse (by intro hh; cases hh; exact h2 rfl)
      | isFalse h1 => isFalse (by intro hh; cases hh; exact h1 rfl)
    else isFalse (by intro hh; cases hh; exact hk rfl)

end

instance : DecidableEq Json := Json.decEq

/-- The standard base64 alphabet, as used by Python `base64.b64encode`. -/
def b64chars : List Char :=
  ['A', 'B', 'C', 'D', 'E', 'F', 'G', 'H', 'I', 'J', 'K', 'L', 'M',
   'N', 'O', 'P', 'Q', 'R', 'S', 'T', 'U', 'V', 'W', 'X', 'Y', 'Z',
   'a', 'b', 'c', 'd', 'e', 'f', 'g', 'h', 'i', 'j', 'k', 'l', 'm',
   'n', 'o', 'p', 'q', 'r', 's', 't', 'u', 'v', 'w', 'x', 'y', 'z',
   '0', '1', '2', '3', '4', '5', '6', '7', '8', '9', '+', '/']

/-- Character for a 6-bit group. -/
def b64c (n : Nat) : Char := b64chars.getD n 'A'

/-- Value of an alphabet character; `none` for anything else (incl. `=`). -/
def b64v (ch : Char) : Option Nat := b64chars.findIdx? (fun c => decide (c = ch))

/-- Model of Python `base64.b64encode`: groups of three bytes become four
alphabet characters; a final group of one or two bytes is padded with `=`. -/
def b64encode : List Nat → List Char
  | [] => []
  | [a] => [b64c (a / 4), b64c (a % 4 * 16), '=', '=']
  | [a, b] => [b64c (a / 4), b64c (a % 4 * 16 + b / 16), b64c (b % 16 * 4), '=']
  | a :: b :: d :: rest =>
      b64c (a / 4) :: b64c (a % 4 * 16 + b / 16) :: b64c (b % 16 * 4 + d / 64) ::
        b64c (d % 64) :: b64encode rest

/-- Model of Python `base64.b64decode` on the inputs the protocol produces:
four-character groups, with a trailing padded group yielding one or two
bytes.  Inputs Python would reject raise `binascii.Error` there; the model
returns `none` (the callers in the receiver wrap the call in a handler that
aborts the surrounding write, which is how `none` is consumed below). -/
def b64decode : List Char → Option (List Nat)
  | [] => some []
  | [w, x, y, z] =>
    if z = '=' then
      if y = '=' then
        match b64v w, b64v x with
        | some a, some b => some [a * 4 + b / 16]
        | _, _ => none
      else
        match b64v w, b64v x, b64v y with
        | some a, some b, some cc => some [a * 4 + b / 16, b % 16 * 16 + cc / 4]
        | _, _, _ => none
    else
      match b64v w, b64v x, b64v y, b64v z with
      | some a, some b, some cc, some d =>
          some [a * 4 + b / 16, b % 16 * 16 + cc / 4, cc % 4 * 64 + d]
      | _, _, _, _ => none
  | w :: x :: y :: z :: r :: rest =>
    match b64v w, b64v x, b64v y, b64v z, b64decode (r :: rest) with
    | some a, some b, some cc, some d, some rs =>
        some ((a * 4 + b / 16) :: (b % 16 * 16 + cc / 4) :: (cc % 4 * 64 + d) :: rs)
    | _, _, _, _, _ => none
  | _ => none

/-- The four field names of the frame payload. -/
def keyP : List Char := ['p']

/-- Field name of the transfer's total part count. -/
def keyT : List Char := ['t']

/-- Field name of the transfer's filename. -/
def keyF : List Char := ['f']

/-- Field name of the base64 chunk data. -/
def keyD : List Char := ['d']

/-- Model of the Python subscript `payload[key]` as used by the receiver:
`some v` when `payload` is a dict containing `key` (last occurrence wins, as
in `json.loads`), `none` when the subscript raises `KeyError` (key absent) or
`TypeError` (`payload` is not a dict); both exceptions are caught by the same
handler in `receiver.py`, so they are observationally identical there. -/
def jget (j : Json) (k : List Char) : Option Json :=
  match j with
  | Json.obj kvs => kvs.foldl (fun acc kv => if kv.fst = k then some kv.snd else acc) none
  | _ => none

/-- Whether a value can be a Python dict key; lists and dicts are unhashable,
so using them as a key raises `TypeError` (caught by the receiver's handler). -/
def hashableKey : Json → Bool
  | Json.arr _ => false
  | Json.obj _ => false
  | _ => true

/-- A decoded transport frame (spec section 3). -/
structure Frame where
  part : Int
  total : Int
  filename : List Char
  data : List Nat
  deriving DecidableEq

/-- Frame encoding, from `boardcaster.generate_qr_images_to_queue` (lines
139-150): the JSON payload has fields `p`, `t`, `f` and `d`, with `d` the
base64 encoding of the chunk bytes.  The textual serialization of this value
is performed by `json.dumps`, inverse of `json.loads`. -/
def encodeFrame (p t : Int) (f : List Char) (b : List Nat) : Json :=
  Json.obj [(keyP, Json.int p), (keyT, Json.int t), (keyF, Json.str f), (keyD, Json.str (b64encode b))]

/-- Frame decoding as the receiver performs it: `payload['p']`,
`payload['t']`, `payload['f']` (receiver.py lines 158-167) and
`base64.b64decode(payload['d'])` (line 227), requiring the shapes those uses
need (integer numbers, strings); any other shape makes the receiver's use of
the frame fail and the frame is not a well-formed frame. -/
def decodeFrame (j : Json) : Option Frame :=
  match jget j keyP, jget j keyT, jget j keyF, jget j keyD with
  | some (Json.int p), some (Json.int t), some (Json.str f), some (Json.str d) =>
    match b64decode d with
    | some bs => some ⟨p, t, f, bs⟩
    | none => none
  | _, _, _, _ => none

/-- The list `[s, s+1, ..., s+k-1]`, modelling Python `range(s, s+k)`. -/
def seqFrom (s : Nat) : Nat → List Nat
  | 0 => []
  | k + 1 => s :: seqFrom (s + 1) k

/-- Total part count, from `boardcaster.get_file_info` line 107:
`math.ceil(total_size / CHUNK_SIZE_BYTES)`, in exact arithmetic. -/
def totalParts (n c : Nat) : Nat := (n + c - 1) / c

/-- Chunk of part `p` (1-based), from `boardcaster.generate_qr_images_to_queue`
lines 134-137: `file_data[(p-1)*c : p*c]`. -/
def chunkOf (F : List Nat) (c p : Nat) : List Nat := (F.drop ((p - 1) * c)).take c

/-- Receiver-side Transfer State, the loop state of
`receiver.main_scanner`: `chunks` is the dict from part number to the stored
`payload['d']` value (insertion-ordered, keys unique), `total` and `filename`
start as `None` and are set from the first stored frame, and
`lastPartFoundTime` is `last_part_found_time` (wall-clock instants modelled
as rationals). -/
structure RecvState where
  chunks : List (Json × Json)
  total : Option Json
  filename : Option Json
  lastPartFoundTime : ℚ
  deriving DecidableEq

/-- The state at the top of `main_scanner` (lines 107-115), `t0` being the
session start instant. -/
def initState (t0 : ℚ) : RecvState := ⟨[], none, none, t0⟩

/-- Python `k in chunks` on the model's insertion-ordered dict. -/
def hasKey (m : List (Json × Json)) (k : Json) : Bool :=
  m.any (fun kv => decide (kv.fst = k))

/-- Python `chunks[k]` (read). -/
def assocGet (m : List (Json × Json)) (k : Json) : Option Json :=
  match m with
  | [] => none
  | kv :: rest => if kv.fst = k then some kv.snd else assocGet rest k

/-- Python `chunks[k] = v`: replaces the entry if the key is present,
appends otherwise (dicts preserve insertion order). -/
def assocSet (m : List (Json × Json)) (k v : Json) : List (Json × Json) :=
  match m with
  | [] => [(k, v)]
  | kv :: rest => if kv.fst = k then (k, v) :: rest else kv :: assocSet rest k v

/-- Whether a byte chunk read back from a draft consists solely of zero
bytes; this is the condition under which `main_scanner` (line 187) treats a
draft stride as a missing-part placeholder. -/
def isAllZero (l : List Nat) : Bool := l.all (fun b => decide (b = 0))

/-- One stride of the draft-resume loop of `main_scanner` lines 180-190:
read `c` bytes, stop at end of file, keep non-all-zero strides as
already-received parts (re-encoded in base64, as the code does). -/
def loadDraftGo (c : Nat) : List Nat → Nat → Nat → List (Json × Json) → List (Json × Json)
  | _, _, 0, m => m
  | db, i, k + 1, m =>
    let ch := db.take c
    if ch.isEmpty then m
    else
      let m' :=
        if isAllZero ch then m
        else if hasKey m (Json.int (Int.ofNat i)) then m
        else assocSet m (Json.int (Int.ofNat i)) (Json.str (b64encode ch))
      loadDraftGo c (db.drop c) (i + 1) k m'

/-- Draft pre-population (`main_scanner` lines 178-195): iterate part
indices `1..total` over the draft bytes.  A non-integer recorded total makes
`range` raise; the inner handler catches it and leaves `chunks` unchanged,
which the caller models by not invoking this function. -/
def loadDraft (c : Nat) (m : List (Json × Json)) (db : List Nat) (n : Nat) : List (Json × Json) :=
  loadDraftGo c db 1 n m

/-- Processing of one successfully parsed payload, `main_scanner` lines
156-213 (the body of the `try` whose handler catches `JSONDecodeError`,
`KeyError` and `TypeError`).  Mutations performed before an exception is
raised persist: in particular a first frame carrying `p`, `d` and `t` but no
`f` leaves `total_parts` assigned.  `draft` is the content of the
pre-existing `DRAFT_` file (`none` when `os.path.exists` is false) and `c`
is `CHUNK_SIZE_BYTES`. -/
def feed (c : Nat) (draft : Option (List Nat)) (now : ℚ) (st : RecvState) (payload : Json) : RecvState :=
  match jget payload keyP with
  | none => st
  | some pn =>
    match jget payload keyD with
    | none => st
    | some bd =>
      if hashableKey pn = false then st
      else if hasKey st.chunks pn then st
      else
        match st.total with
        | some _ =>
          { st with lastPartFoundTime := now, chunks := assocSet st.chunks pn bd }
        | none =>
          match jget payload keyT with
          | none => st
          | some t =>
            match jget payload keyF with
            | none => { st with total := some t }
            | some f =>
              let ch1 :=
                match draft, t with
                | some db, Json.int n => loadDraft c st.chunks db n.toNat
                | _, _ => st.chunks
              { st with total := some t, filename := some f,
                        lastPartFoundTime := now, chunks := assocSet ch1 pn bd }

/-- The completion test of `main_scanner` line 216:
`total_parts is not None and len(chunks) == total_parts`. -/
def isComplete (st : RecvState) : Bool :=
  match st.total with
  | some (Json.int n) => decide ((st.chunks.length : Int) = n)
  | _ => false

/-- Python `base64.b64decode(v)` on a stored chunk value: the argument must
be a string holding valid base64 or the call raises. -/
def b64ofJson : Json → Option (List Nat)
  | Json.str s => b64decode s
  | _ => none

/-- Reassembly loop over parts `i..i+k-1` (`main_scanner` lines 225-228 and
likewise `save_draft_and_exit`'s in-order walk): look up each part, decode
its base64; `none` models the `except` path (missing key or bad value). -/
def assembleGo (m : List (Json × Json)) : Nat → Nat → Option (List Nat)
  | _, 0 => some []
  | i, k + 1 =>
    match assocGet m (Json.int (Int.ofNat i)) with
    | none => none
    | some v =>
      match b64ofJson v with
      | none => none
      | some bs =>
        match assembleGo m (i + 1) k with
        | none => none
        | some rest => some (bs ++ rest)

/-- Final reassembly (`main_scanner` lines 222-228): concatenate the decoded
chunks for parts `1..total` in ascending order; `none` models the
`FATAL ERROR` handler at line 246. -/
def assembleRun (st : RecvState) : Option (List Nat) :=
  match st.total with
  | some (Json.int n) => assembleGo st.chunks 1 n.toNat
  | _ => none

/-- The remediation manifest written to `missing_parts.json`
(`save_draft_and_exit` lines 44-48). -/
structure Manifest where
  filename : Json
  total_parts : Int
  missing : List Nat
  deriving DecidableEq

/-- Draft block for part `i` (`save_draft_and_exit` lines 63-82): the decoded
stored chunk when present, nothing for a missing final part, `c` zero bytes
for a missing non-final part. -/
def draftGo (c total : Nat) (m : List (Json × Json)) : Nat → Nat → Option (List Nat)
  | _, 0 => some []
  | i, k + 1 =>
    let blk : Option (List Nat) :=
      match assocGet m (Json.int (Int.ofNat i)) with
      | some v => b64ofJson v
      | none => if i = total then some [] else some (List.replicate c 0)
    match blk with
    | none => none
    | some b =>
      match draftGo c total m (i + 1) k with
      | none => none
      | some rest => some (b ++ rest)

/-- The whole draft file content; `none` models the handler at line 89 (a
decode failure aborts the write, leaving a partial file and an error
message). -/
def draftBytesOf (c : Nat) (m : List (Json × Json)) (total : Nat) : Option (List Nat) :=
  draftGo c total m 1 total

/-- Observable outcome of `save_draft_and_exit` (receiver.py lines 16-90).
`noTransfer`: lines 23-25, nothing received, nothing written.  `allFound`:
lines 32-38, the gap set is empty — a warning is printed and neither the
manifest nor the draft is written.  `saved`: the manifest and the draft file
contents actually written (`none` for the draft if its write raised
mid-way).  `raises`: a non-integer recorded total makes `range` at line 28
raise (unreachable from well-formed transfers). -/
inductive SaveResult where
  | noTransfer
  | allFound
  | saved (manifest : Manifest) (draft : Option (List Nat))
  | raises
  deriving DecidableEq

/-- Model of `save_draft_and_exit(chunks, total_parts, output_filename)`:
computes the missing-part list `{1..total} - chunks.keys()` in ascending
order and decides what gets written.  Called both on timeout and on
operator cancel (Ctrl+C), receiver.py lines 128 and 255. -/
def saveDraftAndExit (c : Nat) (st : RecvState) : SaveResult :=
  match st.total, st.filename with
  | none, _ => SaveResult.noTransfer
  | some _, none => SaveResult.noTransfer
  | some t, some fn =>
    match t with
    | Json.int n =>
      let missing := (seqFrom 1 n.toNat).filter (fun i => !(hasKey st.chunks (Json.int (Int.ofNat i))))
      if missing.isEmpty then SaveResult.allFound
      else SaveResult.saved ⟨fn, n, missing⟩ (draftBytesOf c st.chunks n.toNat)
    | _ => SaveResult.raises

/-- The timeout test at the top of each scan iteration (`main_scanner` lines
119-129): skipped entirely before the first part (`total_parts is None`);
otherwise `len(chunks) < total_parts and now - last_part_found_time >
SCAN_TIMEOUT_SECONDS`.  `none` models the uncaught `TypeError` when the
recorded total is not comparable with an int. -/
def stallTimeout (T now : ℚ) (st : RecvState) : Option Bool :=
  match st.total with
  | none => some false
  | some (Json.int n) =>
      some (decide ((st.chunks.length : Int) < n) && decide (now - st.lastPartFoundTime > T))
  | some _ => none

/-- Result of one iteration of the scan loop.  `stalled` and `completed` are
terminal (`break`); `fatal` is the `FATAL ERROR` reassembly handler
(line 246-248, also a `break`); `raisesLoop` is an uncaught exception
escaping the loop. -/
inductive LoopResult where
  | running (st : RecvState)
  | stalled (r : SaveResult)
  | completed (out : List Nat)
  | fatal (st : RecvState)
  | raisesLoop
  deriving DecidableEq

/-- One iteration of the `while True` loop of `main_scanner` at wall-clock
instant `now`: timeout check, then processing of the decoded payload
(`obs = none` when no QR code was found on screen, which `continue`s past
the completion check), then the completion check. -/
def stepIter (c : Nat) (T : ℚ) (draft : Option (List Nat)) (st : RecvState) (now : ℚ)
    (obs : Option Json) : LoopResult :=
  match stallTimeout T now st with
  | none => LoopResult.raisesLoop
  | some true => LoopResult.stalled (saveDraftAndExit c st)
  | some false =>
    match obs with
    | none => LoopResult.running st
    | some payload =>
      let st' := feed c draft now st payload
      if isComplete st' then
        match assembleRun st' with
        | some out => LoopResult.completed out
        | none => LoopResult.fatal st'
      else LoopResult.running st'

/-- The scan loop over a finite schedule of iterations (instant, decoded
payload); it stops at the first terminal result, so a transition to STALLED
or COMPLETE happens at most once in a run. -/
def runIters (c : Nat) (T : ℚ) (draft : Option (List Nat)) (st : RecvState) :
    List (ℚ × Option Json) → LoopResult
  | [] => LoopResult.running st
  | (now, obs) :: rest =>
    match stepIter c T draft st now obs with
    | LoopResult.running st' => runIters c T draft st' rest
    | r => r

/-- The payload the sender builds for part `p` of file `F`
(`generate_qr_images_to_queue` lines 134-150). -/
def senderPayload (F : List Nat) (c total : Nat) (fn : List Char) (p : Nat) : Json :=
  Json.obj [(keyP, Json.int (Int.ofNat p)), (keyT, Json.int (Int.ofNat total)),
            (keyF, Json.str fn), (keyD, Json.str (b64encode (chunkOf F c p)))]

/-- A schedule feeding the sender's frames for the listed parts, one per
iteration, all at instant `t0` (the receiver's timer is only exercised by
claims about stalling). -/
def frameEvents (F : List Nat) (c total : Nat) (fn : List Char) (t0 : ℚ) (ps : List Nat) :
    List (ℚ × Option Json) :=
  ps.map (fun p => (t0, some (senderPayload F c total fn p)))

/-- The chunks dict holding, for each part in `L`, the sender's base64
encoding of that part's bytes of `F`. -/
def mkChunks (F : List Nat) (c : Nat) (L : List Nat) : List (Json × Json) :=
  L.map (fun p => (Json.int (Int.ofNat p), Json.str (b64encode (chunkOf F c p))))

/-- A mid-collection receiver state for transfer `(fn, N)` of file `F`
holding exactly the parts of `L`. -/
def mkState (F : List Nat) (c N : Nat) (fn : List Char) (t0 : ℚ) (L : List Nat) : RecvState :=
  ⟨mkChunks F c L, some (Json.int (Int.ofNat N)), some (Json.str fn), t0⟩

/-- Range test for a UTF-8 continuation byte class. -/
def utf8Cont (lo hi b : Nat) : Bool := decide (lo ≤ b) && decide (b ≤ hi)

/-- Strict UTF-8 decoding of a byte sequence, as Python
`bytes.decode('utf-8')` performs at `main_scanner` line 152: `none` models
the `UnicodeDecodeError` that call raises on invalid input (RFC 3629 ranges:
no overlong forms, no surrogates, nothing above U+10FFFF). -/
def utf8Decode : List Nat → Option (List Char)
  | [] => some []
  | b :: rest =>
    if b ≤ 127 then (utf8Decode rest).map (fun cs => Char.ofNat b :: cs)
    else if b < 194 then none
    else if b ≤ 223 then
      match rest with
      | [] => none
      | b2 :: rest2 =>
        if utf8Cont 128 191 b2 then
          (utf8Decode rest2).map (fun cs => Char.ofNat ((b - 192) * 64 + (b2 - 128)) :: cs)
        else none
    else if b ≤ 239 then
      match rest with
      | [] => none
      | [_] => none
      | b2 :: b3 :: rest3 =>
        let ok2 := if b = 224 then utf8Cont 160 191 b2
                   else if b = 237 then utf8Cont 128 159 b2
                   else utf8Cont 128 191 b2
        if ok2 && utf8Cont 128 191 b3 then
          (utf8Decode rest3).map
            (fun cs => Char.ofNat ((b - 224) * 4096 + (b2 - 128) * 64 + (b3 - 128)) :: cs)
        else none
    else if b ≤ 244 then
      match rest with
      | b2 :: b3 :: b4 :: rest4 =>
        let ok2 := if b = 240 then utf8Cont 144 191 b2
                   else if b = 244 then utf8Cont 128 143 b2
                   else utf8Cont 128 191 b2
        if ok2 && utf8Cont 128 191 b3 && utf8Cont 128 191 b4 then
          (utf8Decode rest4).map
            (fun cs => Char.ofNat ((b - 240) * 262144 + (b2 - 128) * 4096 + (b3 - 128) * 64 + (b4 - 128)) :: cs)
        else none
      | _ => none
    else none

/-- JSON whitespace. -/
def jWs (ch : Char) : Bool :=
  decide (ch = ' ') || decide (ch = '\n') || decide (ch = '\r') || decide (ch = '\t')

/-- Drop leading JSON whitespace. -/
def skipWs : List Char → List Char
  | [] => []
  | ch :: rest => if jWs ch then skipWs rest else ch :: rest

/-- Value of a hexadecimal digit. -/
def hexVal (ch : Char) : Option Nat :=
  if '0' ≤ ch ∧ ch ≤ '9' then some (ch.toNat - 48)
  else if 'a' ≤ ch ∧ ch ≤ 'f' then some (ch.toNat - 87)
  else if 'A' ≤ ch ∧ ch ≤ 'F' then some (ch.toNat - 55)
  else none

/-- Leading decimal digits of the input, and the rest. -/
def takeDigits : List Char → (List Char × List Char)
  | [] => ([], [])
  | ch :: rest =>
    if '0' ≤ ch ∧ ch ≤ '9' then
      let dr := takeDigits rest
      (ch :: dr.fst, dr.snd)
    else ([], ch :: rest)

/-- Numeric value of a digit string. -/
def digitsToNat (ds : List Char) : Nat := ds.foldl (fun a ch => a * 10 + (ch.toNat - 48)) 0

/-- Single-character JSON string escapes. -/
def escChar : Char → Option Char
  | '\"' => some '\"'
  | '\\' => some '\\'
  | '/' => some '/'
  | 'b' => some (Char.ofNat 8)
  | 'f' => some (Char.ofNat 12)
  | 'n' => some '\n'
  | 'r' => some '\r'
  | 't' => some '\t'
  | _ => none

/-- Body of a JSON string (after the opening quote): returns the decoded
characters and the input after the closing quote.  Surrogate pairing of
`\u` escapes is not modelled (no payload in any claim uses them). -/
def pStr : List Char → Option (List Char × List Char)
  | [] => none
  | ch :: rest =>
    if ch = '\"' then some ([], rest)
    else if ch = '\\' then
      match rest with
      | [] => none
      | e :: rest2 =>
        if e = 'u' then
          match rest2 with
          | h1 :: h2 :: h3 :: h4 :: rest6 =>
            match hexVal h1, hexVal h2, hexVal h3, hexVal h4 with
            | some a, some b, some cc, some d =>
              (pStr rest6).map (fun pr => (Char.ofNat (a * 4096 + b * 256 + cc * 16 + d) :: pr.fst, pr.snd))
            | _, _, _, _ => none
          | _ => none
        else
          match escChar e with
          | some ec => (pStr rest2).map (fun pr => (ec :: pr.fst, pr.snd))
          | none => none
    else if ch.toNat < 32 then none
    else (pStr rest).map (fun pr => (ch :: pr.fst, pr.snd))

/-- A JSON number restricted to integers: fractional or exponent forms
(which Python would read as floats) are rejected; no claim's payload uses
them. -/
def pNumber (s : List Char) : Option (Json × List Char) :=
  let core : List Char → Option (Nat × List Char) := fun t =>
    let dr := takeDigits t
    if dr.fst.isEmpty then none
    else
      match dr.snd with
      | next :: _ =>
        if next = '.' ∨ next = 'e' ∨ next = 'E' then none
        else some (digitsToNat dr.fst, dr.snd)
      | [] => some (digitsToNat dr.fst, dr.snd)
  match s with
  | '-' :: rest =>
    match core rest with
    | some (v, r) => some (Json.int (-(Int.ofNat v)), r)
    | none => none
  | _ =>
    match core s with
    | some (v, r) => some (Json.int (Int.ofNat v), r)
    | none => none

mutual

/-- Fuel-bounded JSON value (the fuel passed by `jsonParse` always
suffices). -/
def pVal : Nat → List Char → Option (Json × List Char)
  | 0, _ => none
  | fuel + 1, s =>
    match skipWs s with
    | [] => none
    | ch :: rest =>
      if ch = 'n' then
        match rest with
        | 'u' :: 'l' :: 'l' :: r => some (Json.null, r)
        | _ => none
      else if ch = 't' then
        match rest with
        | 'r' :: 'u' :: 'e' :: r => some (Json.bool true, r)
        | _ => none
      else if ch = 'f' then
        match rest with
        | 'a' :: 'l' :: 's' :: 'e' :: r => some (Json.bool false, r)
        | _ => none
      else if ch = '\"' then
        (pStr rest).map (fun pr => (Json.str pr.fst, pr.snd))
      else if ch = '[' then
        match skipWs rest with
        | ']' :: r => some (Json.arr [], r)
        | r2 => (pArrItems fuel r2).map (fun pr => (Json.arr pr.fst, pr.snd))
      else if ch = '\x7b' then
        match skipWs rest with
        | '\x7d' :: r => some (Json.obj [], r)
        | r2 => (pObjItems fuel r2).map (fun pr => (Json.obj pr.fst, pr.snd))
      else pNumber (ch :: rest)

/-- Comma-separated array items up to the closing bracket. -/
def pArrItems : Nat → List Char → Option (List Json × List Char)
  | 0, _ => none
  | fuel + 1, s =>
    match pVal fuel s with
    | none => none
    | some (v, r) =>
      match skipWs r with
      | ',' :: r2 => (pArrItems fuel r2).map (fun pr => (v :: pr.fst, pr.snd))
      | ']' :: r2 => some ([v], r2)
      | _ => none

/-- Comma-separated object members up to the closing brace. -/
def pObjItems : Nat → List Char → Option (List (List Char × Json) × List Char)
  | 0, _ => none
  | fuel + 1, s =>
    match skipWs s with
    | '\"' :: r =>
      match pStr r with
      | none => none
      | some (k, r1) =>
        match skipWs r1 with
        | ':' :: r2 =>
          match pVal fuel r2 with
          | none => none
          | some (v, r3) =>
            match skipWs r3 with
            | ',' :: r4 => (pObjItems fuel r4).map (fun pr => ((k, v) :: pr.fst, pr.snd))
            | '\x7d' :: r4 => some ([(k, v)], r4)
            | _ => none
        | _ => none
    | _ => none

end

/-- Model of Python `json.loads` on the decoded text: a single JSON value
with nothing but whitespace after it, `none` for `json.JSONDecodeError`. -/
def jsonParse (s : List Char) : Option Json :=
  match pVal (2 * s.length + 2) s with
  | some (v, r) => if (skipWs r).isEmpty then some v else none
  | none => none

/-- Outcome of handling one scanned code's raw bytes. -/
inductive ScanOutcome where
  | raises
  | next (st : RecvState)
  deriving DecidableEq

/-- Handling of one decoded barcode's byte payload, `main_scanner` lines
152-213: `decoded_objects[0].data.decode('utf-8')` at line 152 sits OUTSIDE
the `try`, so a `UnicodeDecodeError` there escapes the loop (`raises`);
after that, `json.loads` failure is caught and ignored, and a parsed payload
is handed to the frame-processing block. -/
def scanStep (c : Nat) (draft : Option (List Nat)) (now : ℚ) (st : RecvState)
    (raw : List Nat) : ScanOutcome :=
  match utf8Decode raw with
  | none => ScanOutcome.raises
  | some s =>
    match jsonParse s with
    | none => ScanOutcome.next st
    | some payload => ScanOutcome.next (feed c draft now st payload)

/-- Outcome of the sender's startup gate. -/
inductive MainOutcome where
  | fileError
  | proceed (fileData : List Nat) (total : Nat) (fn : List Char)
  deriving DecidableEq

/-- The sender's startup (`boardcaster.main` lines 191-196 together with
`get_file_info`): `read` is `none` when reading raised (get_file_info
returned `None`), `some bytes` on a successful read; `main` then tests
`if not file_data`, which is also true for an empty byte string, and exits
with "Could not read file." before any session or frame is created. -/
def mainGate (read : Option (List Nat)) (c : Nat) (fn : List Char) : MainOutcome :=
  match read with
  | none => MainOutcome.fileError
  | some fileData =>
    if fileData.isEmpty then MainOutcome.fileError
    else MainOutcome.proceed fileData (totalParts fileData.length c) fn

/-- Concrete mid-collection state used by counterexamples: collecting
transfer `("a", total 2)` and holding part 1 with data `"AQ=="`. -/
def cexSt : RecvState :=
  ⟨[(Json.int 1, Json.str ['A', 'Q', '=', '='])], some (Json.int 2), some (Json.str ['a']), 0⟩

/-- A well-formed frame payload whose identity `(filename, total)` differs
from `cexSt`'s active transfer: part 2, total 99, filename "z". -/
def cexOtherIdentity : Json :=
  Json.obj [(keyP, Json.int 2), (keyT, Json.int 99), (keyF, Json.str ['z']),
            (keyD, Json.str ['A', 'Q', '=', '='])]

theorem b64v_b64c_eq : ∀ n : Nat, n < 64 → b64v (b64c n) = some n := by decide

theorem b64c_ne_pad : ∀ n : Nat, n < 64 → b64c n ≠ '=' := by decide

theorem b64encode_eq_nil_iff (bs : List Nat) : b64encode bs = [] ↔ bs = [] := by
  cases bs with
  | nil => simp [b64encode]
  | cons a t =>
    cases t with
    | nil => simp [b64encode]
    | cons b t2 =>
      cases t2 with
      | nil => simp [b64encode]
      | cons d rest => simp [b64encode]

/-- Base64 round-trip at the byte level: decoding an encoded byte list gives
back the bytes. -/
theorem b64_roundtrip : ∀ bs : List Nat, (∀ x ∈ bs, x < 256) → b64decode (b64encode bs) = some bs := by
  intro bs
  induction bs using b64encode.induct with
  | case1 => intro _; rfl
  | case2 a =>
    intro h
    have ha : a < 256 := h a (by simp)
    have h1 : a / 4 < 64 := by omega
    have h2 : a % 4 * 16 < 64 := by omega
    simp only [b64encode, b64decode, if_true]
    rw [b64v_b64c_eq _ h1, b64v_b64c_eq _ h2]
    simp only [Option.some.injEq, List.cons.injEq, and_true]
    omega
  | case3 a b =>
    intro h
    have ha : a < 256 := h a (by simp)
    have hbb : b < 256 := h b (by simp)
    have h1 : a / 4 < 64 := by omega
    have h2 : a % 4 * 16 + b / 16 < 64 := by omega
    have h3 : b % 16 * 4 < 64 := by omega
    simp only [b64encode, b64decode, if_true]
    rw [if_neg (b64c_ne_pad _ h3), b64v_b64c_eq _ h1, b64v_b64c_eq _ h2,
        b64v_b64c_eq _ h3]
    simp only [Option.some.injEq, List.cons.injEq, and_true]
    omega
  | case4 a b d rest ih =>
    intro h
    have ha : a < 256 := h a (by simp)
    have hbb : b < 256 := h b (by simp)
    have hd : d < 256 := h d (by simp)
    have hrest : ∀ x ∈ rest, x < 256 := fun x hx => h x (by simp [hx])
    have hih := ih hrest
    have h1 : a / 4 < 64 := by omega
    have h2 : a % 4 * 16 + b / 16 < 64 := by omega
    have h3 : b % 16 * 4 + d / 64 < 64 := by omega
    have h4 : d % 64 < 64 := by omega
    simp only [b64encode]
    cases henc : b64encode rest with
    | nil =>
      have : rest = [] := (b64encode_eq_nil_iff rest).mp henc
      subst this
      simp only [b64encode] at henc
      simp only [b64decode]
      rw [if_neg (b64c_ne_pad _ h4), b64v_b64c_eq _ h1, b64v_b64c_eq _ h2,
          b64v_b64c_eq _ h3, b64v_b64c_eq _ h4]
      simp only [Option.some.injEq, List.cons.injEq, and_true]
      omega
    | cons r rs =>
      rw [henc] at hih
      simp only [b64decode]
      rw [b64v_b64c_eq _ h1, b64v_b64c_eq _ h2, b64v_b64c_eq _ h3, b64v_b64c_eq _ h4, hih]
      simp only [Option.some.injEq, List.cons.injEq, and_true]
      exact ⟨by omega, by omega, by omega⟩

/-- Claim C3: frame round-trip.  For every part number `p`, total `t`,
filename `f` and byte sequence `b` (empty and zero bytes included),
decoding the frame the sender encodes — the JSON payload with fields `p`,
`t`, `f` and base64 `d` — yields back exactly the frame `(p, t, f, b)`. -/
theorem c3_frame_roundtrip (p t : Int) (f : List Char) (b : List Nat)
    (hb : ∀ x ∈ b, x < 256) :
    decodeFrame (encodeFrame p t f b) = some ⟨p, t, f, b⟩ := by
  have hd : b64decode (b64encode b) = some b := b64_roundtrip b hb
  have hred : decodeFrame (encodeFrame p t f b) =
      match b64decode (b64encode b) with
      | some bs => some ⟨p, t, f, bs⟩
      | none => none := rfl
  rw [hred, hd]

/-- Witness for C3 at a concrete frame whose data holds a zero byte. -/
theorem c3_frame_roundtrip_witness :
    decodeFrame (encodeFrame 1 2 ['a'] [0, 255, 7]) = some ⟨1, 2, ['a'], [0, 255, 7]⟩ :=
  c3_frame_roundtrip 1 2 ['a'] [0, 255, 7] (by decide)

theorem totalParts_zero (c : Nat) : totalParts 0 c = 0 := by
  unfold totalParts
  rcases Nat.eq_zero_or_pos c with h | h
  · subst h; rfl
  · exact Nat.div_eq_of_lt (by omega)

theorem totalParts_step (n c : Nat) (hc : 1 ≤ c) (hn : 1 ≤ n) :
    totalParts n c = totalParts (n - c) c + 1 := by
  unfold totalParts
  have h3 : n + c - 1 = n - 1 + c := by omega
  rw [h3, Nat.add_div_right _ (by omega)]
  rcases le_or_lt c n with h | h
  · have h4 : n - c + c - 1 = n - 1 := by omega
    rw [h4]
  · have h1 : n - c = 0 := by omega
    rw [h1]
    have h2 : (0 + c - 1) / c = 0 := Nat.div_eq_of_lt (by omega)
    rw [h2, Nat.div_eq_of_lt (by omega)]

theorem totalParts_pos (n c : Nat) (hc : 1 ≤ c) (hn : 1 ≤ n) : 1 ≤ totalParts n c := by
  unfold totalParts
  rw [Nat.le_div_iff_mul_le (by omega)]
  omega

theorem totalParts_mul_ge (n c : Nat) (hc : 1 ≤ c) : n ≤ totalParts n c * c := by
  unfold totalParts
  have hdm := Nat.div_add_mod (n + c - 1) c
  have hmod : (n + c - 1) % c < c := Nat.mod_lt _ (by omega)
  rw [Nat.mul_comm]
  set X := c * ((n + c - 1) / c) with hX
  omega

theorem totalParts_pred_mul_lt (n c : Nat) (hc : 1 ≤ c) (hn : 1 ≤ n) :
    (totalParts n c - 1) * c < n := by
  unfold totalParts
  have hdm := Nat.div_add_mod (n + c - 1) c
  have hmod : (n + c - 1) % c < c := Nat.mod_lt _ (by omega)
  rw [tsub_mul, Nat.mul_comm ((n + c - 1) / c) c]
  set X := c * ((n + c - 1) / c) with hX
  omega

theorem totalParts_eq_ceil (n c : Nat) (hc : 1 ≤ c) :
    (totalParts n c : Int) = Int.ceil ((n : ℚ) / (c : ℚ)) := by
  have hc0 : (0 : ℚ) < (c : ℚ) := by exact_mod_cast Nat.lt_of_lt_of_le Nat.zero_lt_one hc
  rw [eq_comm, Int.ceil_eq_iff]
  push_cast
  constructor
  · rcases Nat.eq_zero_or_pos n with h0 | hpos
    · subst h0
      rw [totalParts_zero]
      norm_num
    · have ht1 := totalParts_pos n c hc hpos
      have hlt := totalParts_pred_mul_lt n c hc hpos
      rw [lt_div_iff₀ hc0]
      have hcast : ((totalParts n c : ℚ) - 1) = ((totalParts n c - 1 : ℕ) : ℚ) := by
        rw [Nat.cast_sub ht1]
        norm_num
      rw [hcast]
      exact_mod_cast hlt
  · have hge := totalParts_mul_ge n c hc
    rw [div_le_iff₀ hc0]
    exact_mod_cast hge

theorem mem_seqFrom : ∀ (k s p : Nat), p ∈ seqFrom s k ↔ s ≤ p ∧ p < s + k := by
  intro k
  induction k with
  | zero => intro s p; simp [seqFrom]
  | succ k ih => intro s p; simp [seqFrom, ih (s + 1)]; omega

theorem seqFrom_map_shift {α : Type} (g : Nat → α) :
    ∀ (k s : Nat), (seqFrom (s + 1) k).map g = (seqFrom s k).map (fun p => g (p + 1)) := by
  intro k
  induction k with
  | zero => intro s; rfl
  | succ k ih =>
    intro s
    simp only [seqFrom, List.map_cons, ih (s + 1)]

theorem chunkOf_succ (F : List Nat) (c p : Nat) (hp : 1 ≤ p) :
    chunkOf F c (p + 1) = chunkOf (F.drop c) c p := by
  unfold chunkOf
  rw [List.drop_drop]
  have h2 : p - 1 + 1 = p := by omega
  have h3 : (p + 1 - 1) * c = c + (p - 1) * c := by
    rw [Nat.add_sub_cancel]
    calc p * c = (p - 1 + 1) * c := by rw [h2]
    _ = c + (p - 1) * c := by ring
  rw [h3]

theorem chunkOf_one (F : List Nat) (c : Nat) : chunkOf F c 1 = F.take c := by
  unfold chunkOf
  norm_num

/-- The chunks for parts `1..total` concatenate back to the whole file:
the chunker covers `[0, n)` exactly once. -/
theorem chunks_join (c : Nat) (hc : 1 ≤ c) :
    ∀ (n : Nat) (F : List Nat), F.length = n →
      ((seqFrom 1 (totalParts F.length c)).map (chunkOf F c)).flatten = F := by
  intro n
  induction n using Nat.strong_induction_on with
  | _ n ih =>
    intro F hF
    rcases Nat.eq_zero_or_pos n with h0 | hpos
    · subst h0
      have hnil : F = [] := List.length_eq_zero.mp hF
      subst hnil
      simp [totalParts_zero, seqFrom]
    · rw [hF, totalParts_step n c hc (by omega)]
      have hstep : seqFrom 1 (totalParts (n - c) c + 1) = 1 :: seqFrom 2 (totalParts (n - c) c) := rfl
      rw [hstep]
      rw [List.map_cons, List.flatten_cons, chunkOf_one]
      have hshift : (seqFrom 2 (totalParts (n - c) c)).map (chunkOf F c) =
          (seqFrom 1 (totalParts (n - c) c)).map (fun p => chunkOf F c (p + 1)) :=
        seqFrom_map_shift (chunkOf F c) (totalParts (n - c) c) 1
      rw [hshift]
      have hcongr : (seqFrom 1 (totalParts (n - c) c)).map (fun p => chunkOf F c (p + 1)) =
          (seqFrom 1 (totalParts (n - c) c)).map (chunkOf (F.drop c) c) := by
        apply List.map_congr_left
        intro p hp
        have hp1 : 1 ≤ p := ((mem_seqFrom _ 1 p).mp hp).1
        exact chunkOf_succ F c p hp1
      rw [hcongr]
      have hlen : (F.drop c).length = n - c := by rw [List.length_drop, hF]
      have hrec := ih (n - c) (by omega) (F.drop c) hlen
      rw [hlen] at hrec
      rw [hrec]
      exact List.take_append_drop c F

theorem chunkOf_length_of_lt (F : List Nat) (c p : Nat) (hc : 1 ≤ c) (hp : 1 ≤ p)
    (hlt : p < totalParts F.length c) : (chunkOf F c p).length = c := by
  unfold chunkOf
  rw [List.length_take, List.length_drop]
  have hn : 1 ≤ F.length := by
    by_contra hcon
    have h0 : F.length = 0 := by omega
    rw [h0, totalParts_zero] at hlt
    omega
  have h2 := totalParts_pred_mul_lt F.length c hc hn
  have h1 : p * c ≤ (totalParts F.length c - 1) * c :=
    Nat.mul_le_mul_right _ (by omega)
  have hpc : (p - 1) * c + c = p * c := by
    have h : p - 1 + 1 = p := by omega
    calc (p - 1) * c + c = (p - 1 + 1) * c := by ring
    _ = p * c := by rw [h]
  have h3 : (p - 1) * c + c ≤ F.length := by
    rw [hpc]
    exact le_of_lt (lt_of_le_of_lt h1 h2)
  set q := (p - 1) * c with hq
  omega

theorem chunkOf_length_last (F : List Nat) (c : Nat) (hc : 1 ≤ c) (hn : 1 ≤ F.length) :
    (chunkOf F c (totalParts F.length c)).length
      = F.length - (totalParts F.length c - 1) * c
    ∧ 1 ≤ (chunkOf F c (totalParts F.length c)).length := by
  unfold chunkOf
  rw [List.length_take, List.length_drop]
  have h2 := totalParts_pred_mul_lt F.length c hc hn
  have h1 := totalParts_mul_ge F.length c hc
  have hpos := totalParts_pos F.length c hc hn
  have h4 : totalParts F.length c * c = (totalParts F.length c - 1) * c + c := by
    have h : totalParts F.length c - 1 + 1 = totalParts F.length c := by omega
    calc totalParts F.length c * c = (totalParts F.length c - 1 + 1) * c := by rw [h]
    _ = (totalParts F.length c - 1) * c + c := by ring
  rw [h4] at h1
  set q := (totalParts F.length c - 1) * c with hq
  omega

/-- Claim C4: chunking.  For every file `F` and chunk size `c ≥ 1` the
sender's total is the exact ceiling of `n / c`; the chunk of part `p` is
the contiguous slice starting at byte `(p-1)*c`; the chunks of parts
`1..total` concatenate exactly to the file (covering `[0, n)` once with no
overlap); every part but the last has exactly `c` bytes; and the last part
has the `n - (total-1)*c` remaining bytes, never zero. -/
theorem c4_chunking (F : List Nat) (c : Nat) (hc : 1 ≤ c) :
    (totalParts F.length c : Int) = Int.ceil ((F.length : ℚ) / (c : ℚ))
    ∧ ((seqFrom 1 (totalParts F.length c)).map (chunkOf F c)).flatten = F
    ∧ (∀ p, chunkOf F c p = (F.drop ((p - 1) * c)).take c)
    ∧ (∀ p, 1 ≤ p → p < totalParts F.length c → (chunkOf F c p).length = c)
    ∧ (1 ≤ F.length →
        (chunkOf F c (totalParts F.length c)).length
          = F.length - (totalParts F.length c - 1) * c
        ∧ 1 ≤ (chunkOf F c (totalParts F.length c)).length) := by
  refine ⟨totalParts_eq_ceil F.length c hc, chunks_join c hc F.length F rfl,
    fun p => rfl, fun p hp hlt => chunkOf_length_of_lt F c p hc hp hlt,
    fun hn => chunkOf_length_last F c hc hn⟩

/-- Witness for C4: a 5-byte file with chunk size 2 (total 3; parts of
sizes 2, 2, 1). -/
theorem c4_chunking_witness :
    (1 : Nat) ≤ 2
    ∧ ((totalParts (List.length [7, 8, 9, 10, 11]) 2 : Int)
        = Int.ceil ((List.length [7, 8, 9, 10, 11] : ℚ) / (2 : ℚ))
      ∧ ((seqFrom 1 (totalParts (List.length [7, 8, 9, 10, 11]) 2)).map
          (chunkOf [7, 8, 9, 10, 11] 2)).flatten = [7, 8, 9, 10, 11]) :=
  ⟨by decide, (c4_chunking [7, 8, 9, 10, 11] 2 (by decide)).1,
    (c4_chunking [7, 8, 9, 10, 11] 2 (by decide)).2.1⟩

/-- Claim C10 (implicit): a readable zero-byte source file makes the sender
exit through the could-not-read gate (`if not file_data` is true for the
empty byte string) before any session or frame is produced, even though the
read succeeded and the computed total would be 0. -/
theorem c10_empty_file (c : Nat) (fn : List Char) :
    mainGate (some []) c fn = MainOutcome.fileError ∧ totalParts 0 c = 0 :=
  ⟨rfl, totalParts_zero c⟩

/-- Claim C2, the code's actual behaviour at the failing input: a scanned
code whose payload is the single byte `0xFF` (not UTF-8) makes the
receiver's decoding step raise (`bytes.decode('utf-8')` at receiver.py line
152 sits outside the `try`, so the `UnicodeDecodeError` escapes), for every
chunk size, draft, instant and state — the claim says this must never
happen. -/
theorem c2_decode_raises (c : Nat) (draft : Option (List Nat)) (now : ℚ) (st : RecvState) :
    scanStep c draft now st [255] = ScanOutcome.raises := rfl

/-- Counterexample to claim C1: from the concrete COLLECTING state `cexSt`
(transfer `("a", 2)`, part 1 held), the well-formed frame
`cexOtherIdentity` — part 2 of a DIFFERENT transfer `("z", 99)` — is
stored rather than ignored: the part map changes and now holds part 2. -/
theorem c1_counterexample :
    jget cexOtherIdentity keyT ≠ cexSt.total
    ∧ jget cexOtherIdentity keyF ≠ cexSt.filename
    ∧ (feed 2048 none 0 cexSt cexOtherIdentity).chunks ≠ cexSt.chunks
    ∧ hasKey (feed 2048 none 0 cexSt cexOtherIdentity).chunks (Json.int 2) = true := by
  decide

/-- Claim C1 as amended: during COLLECTING (a recorded total exists), the
receiver consults only the frame's `p` and `d` fields — the frame's
`filename` and `total` are never compared with the active transfer's
identity.  A well-formed frame whose part is new is stored (and the stall
timer reset) no matter what its `t` and `f` say; a frame whose part is
already present is ignored. -/
theorem c1_amended (c : Nat) (draft : Option (List Nat)) (now : ℚ) (st : RecvState)
    (payload pn bd : Json)
    (htot : st.total.isSome = true)
    (hp : jget payload keyP = some pn)
    (hd : jget payload keyD = some bd)
    (hh : hashableKey pn = true) :
    feed c draft now st payload =
      if hasKey st.chunks pn then st
      else { st with lastPartFoundTime := now, chunks := assocSet st.chunks pn bd } := by
  obtain ⟨t, ht⟩ := Option.isSome_iff_exists.mp htot
  unfold feed
  rw [hp, hd, ht]
  by_cases hk : hasKey st.chunks pn
  · simp [hh, hk]
  · simp [hh, hk]

/-- Witness for the amended C1 at the concrete mismatched-identity frame. -/
theorem c1_amended_witness :
    feed 2048 none 0 cexSt cexOtherIdentity =
      if hasKey cexSt.chunks (Json.int 2) then cexSt
      else { cexSt with
             lastPartFoundTime := 0
             chunks := assocSet cexSt.chunks (Json.int 2) (Json.str ['A', 'Q', '=', '=']) } :=
  c1_amended 2048 none 0 cexSt cexOtherIdentity (Json.int 2) (Json.str ['A', 'Q', '=', '='])
    (by decide) (by decide) (by decide) (by decide)

/-- Claim C8: entering the STALLED path (timeout or operator cancel) with an
empty gap set — every part `1..total` already stored — only warns: the
result is `allFound`, which writes neither a draft file nor a remediation
manifest. -/
theorem c8_empty_gap_noop (c : Nat) (st : RecvState) (n : Int) (fnj : Json)
    (htot : st.total = some (Json.int n))
    (hfn : st.filename = some fnj)
    (hall : ∀ i : Nat, 1 ≤ i → i ≤ n.toNat → hasKey st.chunks (Json.int (Int.ofNat i)) = true) :
    saveDraftAndExit c st = SaveResult.allFound := by
  unfold saveDraftAndExit
  rw [htot, hfn]
  simp only [List.isEmpty_iff, List.filter_eq_nil_iff]
  have hcond : ∀ a ∈ seqFrom 1 n.toNat,
      ¬(!hasKey st.chunks (Json.int (Int.ofNat a))) = true := by
    intro i hi
    have hb := (mem_seqFrom _ 1 i).mp hi
    have h := hall i hb.1 (by omega)
    simp
    exact h
  rw [if_pos hcond]

/-- Witness for C8: a transfer of total 1 whose single part is present. -/
theorem c8_empty_gap_noop_witness :
    saveDraftAndExit 2048 ⟨[(Json.int 1, Json.str ['A', 'Q', '=', '='])],
      some (Json.int 1), some (Json.str ['a']), 0⟩ = SaveResult.allFound :=
  c8_empty_gap_noop 2048 _ 1 (Json.str ['a']) rfl rfl (by decide)

theorem seqFrom_length : ∀ (k s : Nat), (seqFrom s k).length = k := by
  intro k
  induction k with
  | zero => intro s; rfl
  | succ k ih => intro s; simp [seqFrom, ih (s + 1)]

theorem seqFrom_nodup : ∀ (k s : Nat), (seqFrom s k).Nodup := by
  intro k
  induction k with
  | zero => intro s; exact List.nodup_nil
  | succ k ih =>
    intro s
    rw [seqFrom, List.nodup_cons]
    constructor
    · intro hmem
      have := (mem_seqFrom _ _ _).mp hmem
      omega
    · exact ih (s + 1)

/-- Membership of an integer part key in a chunks dict whose keys are
exactly the parts of `L`. -/
theorem hasKey_keys_int (m : List (Json × Json)) (L : List Nat) (i : Nat)
    (hkeys : m.map Prod.fst = L.map (fun p => Json.int (Int.ofNat p))) :
    (hasKey m (Json.int (Int.ofNat i)) = true) ↔ i ∈ L := by
  unfold hasKey
  rw [List.any_eq_true]
  constructor
  · rintro ⟨kv, hkv, hdec⟩
    have heq : kv.fst = Json.int (Int.ofNat i) := of_decide_eq_true hdec
    have hmem : kv.fst ∈ m.map Prod.fst := List.mem_map_of_mem Prod.fst hkv
    rw [hkeys] at hmem
    obtain ⟨p, hpL, hpe⟩ := List.mem_map.mp hmem
    rw [heq] at hpe
    have hpi : p = i := by
      injection hpe with h
      exact Int.ofNat.inj h
    rwa [← hpi]
  · intro hiL
    have hmem : Json.int (Int.ofNat i) ∈ m.map Prod.fst := by
      rw [hkeys]
      exact List.mem_map_of_mem _ hiL
    obtain ⟨kv, hkv, he⟩ := List.mem_map.mp hmem
    exact ⟨kv, hkv, decide_eq_true he⟩

/-- Counting lemma: removing the members of a duplicate-free sublist `L`
from a duplicate-free list leaves `length - L.length` elements. -/
theorem filter_not_mem_length :
    ∀ (l L : List Nat), l.Nodup → L.Nodup → (∀ p, p ∈ L → p ∈ l) →
      (l.filter (fun i => !(decide (i ∈ L)))).length = l.length - L.length := by
  intro l
  induction l with
  | nil =>
    intro L _ _ hsub
    have hL : L = [] := List.eq_nil_iff_forall_not_mem.mpr
      (fun a ha => by simpa using hsub a ha)
    subst hL
    rfl
  | cons a l ih =>
    intro L hl hL hsub
    have hal : a ∉ l := (List.nodup_cons.mp hl).1
    have hl' : l.Nodup := (List.nodup_cons.mp hl).2
    by_cases haL : a ∈ L
    · have hfa : (!(decide (a ∈ L))) = false := by simp [haL]
      rw [List.filter_cons, hfa, if_neg Bool.false_ne_true]
      have hcong : l.filter (fun i => !(decide (i ∈ L)))
          = l.filter (fun i => !(decide (i ∈ L.erase a))) := by
        apply List.filter_congr
        intro i hi
        have hia : i ≠ a := fun he => hal (he ▸ hi)
        have hiff : i ∈ L ↔ i ∈ L.erase a := (List.mem_erase_of_ne hia).symm
        by_cases hiL : i ∈ L
        · simp [hiL, hiff.mp hiL]
        · have hne : i ∉ L.erase a := fun hcon => hiL (hiff.mpr hcon)
          simp [hiL, hne]
      have hsub' : ∀ p, p ∈ L.erase a → p ∈ l := by
        intro p hp
        have hpa : p ≠ a ∧ p ∈ L := (List.Nodup.mem_erase_iff hL).mp hp
        rcases List.mem_cons.mp (hsub p hpa.2) with he | h
        · exact absurd he hpa.1
        · exact h
      rw [hcong, ih (L.erase a) hl' (hL.erase a) hsub']
      rw [List.length_erase_of_mem haL]
      have hL1 : 1 ≤ L.length := List.length_pos.mpr (by intro hnil; rw [hnil] at haL; cases haL)
      simp only [List.length_cons]
      omega
    · have hfa : (!(decide (a ∈ L))) = true := by simp [haL]
      rw [List.filter_cons, hfa, if_pos rfl]
      have hsub' : ∀ p, p ∈ L → p ∈ l := by
        intro p hp
        rcases List.mem_cons.mp (hsub p hp) with he | h
        · exact absurd (he ▸ hp) haL
        · exact h
      have hLle : L.length ≤ l.length :=
        (List.Nodup.subperm hL (fun p hp => hsub' p hp)).length_le
      rw [List.length_cons, ih L hl' hL hsub']
      simp only [List.length_cons]
      omega

/-- The gap list the stalled receiver computes has exactly `N - k`
elements when the chunks dict holds the `k` distinct in-range parts of
`seenL`. -/
theorem gap_length (m : List (Json × Json)) (seenL : List Nat) (N : Nat)
    (hkeys : m.map Prod.fst = seenL.map (fun p => Json.int (Int.ofNat p)))
    (hnd : seenL.Nodup)
    (hrange : ∀ p ∈ seenL, 1 ≤ p ∧ p ≤ N) :
    ((seqFrom 1 N).filter (fun i => !(hasKey m (Json.int (Int.ofNat i))))).length
      = N - seenL.length := by
  have hcong : (seqFrom 1 N).filter (fun i => !(hasKey m (Json.int (Int.ofNat i))))
      = (seqFrom 1 N).filter (fun i => !(decide (i ∈ seenL))) := by
    apply List.filter_congr
    intro i _
    by_cases hiL : i ∈ seenL
    · have h1 : hasKey m (Json.int (Int.ofNat i)) = true :=
        (hasKey_keys_int m seenL i hkeys).mpr hiL
      simp [hiL]
      exact h1
    · have h1 : hasKey m (Json.int (Int.ofNat i)) = false := by
        cases hb : hasKey m (Json.int (Int.ofNat i)) with
        | false => rfl
        | true => exact absurd ((hasKey_keys_int m seenL i hkeys).mp hb) hiL
      simp [hiL]
      exact h1
  rw [hcong, filter_not_mem_length (seqFrom 1 N) seenL (seqFrom_nodup N 1) hnd
    (fun p hp => (mem_seqFrom N 1 p).mpr (by have := hrange p hp; omega)),
    seqFrom_length]

/-- Claim C6: stall detection.  With recorded total `N`, `k` distinct
stored parts, `0 < k < N` and more than `T` seconds since the last newly
stored part, the next loop iteration transitions to STALLED — the loop
stops there, so the transition happens exactly once regardless of later
events — and the computed gap set has exactly `N - k` parts.  The timer is
the instant of the most recent newly stored part (`lastPartFoundTime`),
and a receiver that has not yet stored a first part (`total` still `None`)
never times out, whatever the elapsed time. -/
theorem c6_stall (c : Nat) (T now : ℚ) (draft : Option (List Nat)) (st : RecvState)
    (N : Nat) (seenL : List Nat) (fnj : Json) (obs : Option Json)
    (rest : List (ℚ × Option Json))
    (htot : st.total = some (Json.int (Int.ofNat N)))
    (hfn : st.filename = some fnj)
    (hkeys : st.chunks.map Prod.fst = seenL.map (fun p => Json.int (Int.ofNat p)))
    (hnd : seenL.Nodup)
    (hrange : ∀ p ∈ seenL, 1 ≤ p ∧ p ≤ N)
    (hk0 : 0 < seenL.length) (hkN : seenL.length < N)
    (htime : now - st.lastPartFoundTime > T) :
    (runIters c T draft st ((now, obs) :: rest) = LoopResult.stalled (saveDraftAndExit c st)
      ∧ ∃ M dr, saveDraftAndExit c st = SaveResult.saved M dr
          ∧ M.missing.length = N - seenL.length)
    ∧ (∀ (st2 : RecvState) (now2 : ℚ) (obs2 : Option Json) (r : SaveResult),
        st2.total = none → stepIter c T draft st2 now2 obs2 ≠ LoopResult.stalled r) := by
  have hlen : st.chunks.length = seenL.length := by
    have h1 := congrArg List.length hkeys
    simpa using h1
  have hstall : stallTimeout T now st = some true := by
    unfold stallTimeout
    rw [htot]
    simp [htime, hlen, hkN]
  have hstep : stepIter c T draft st now obs = LoopResult.stalled (saveDraftAndExit c st) := by
    unfold stepIter
    rw [hstall]
  have hrun : runIters c T draft st ((now, obs) :: rest)
      = LoopResult.stalled (saveDraftAndExit c st) := by
    unfold runIters
    rw [hstep]
  have hgap := gap_length st.chunks seenL N hkeys hnd hrange
  have hsave : ∃ M dr, saveDraftAndExit c st = SaveResult.saved M dr
      ∧ M.missing.length = N - seenL.length := by
    unfold saveDraftAndExit
    rw [htot, hfn]
    dsimp only
    rw [show (Int.ofNat N).toNat = N from rfl]
    have hne : ¬ ((seqFrom 1 N).filter
        (fun i => !(hasKey st.chunks (Json.int (Int.ofNat i))))).isEmpty = true := by
      rw [List.isEmpty_iff]
      intro hnil
      rw [hnil] at hgap
      simp at hgap
      omega
    rw [if_neg hne]
    exact ⟨_, _, rfl, hgap⟩
  refine ⟨⟨hrun, hsave⟩, ?_⟩
  intro st2 now2 obs2 r h2
  unfold stepIter stallTimeout
  rw [h2]
  cases obs2 with
  | none =>
    intro hcon
    exact LoopResult.noConfusion hcon
  | some payload =>
    by_cases hcc : isComplete (feed c draft now2 st2 payload)
    · simp only [hcc, if_true]
      cases hasm : assembleRun (feed c draft now2 st2 payload) with
      | none =>
        intro hcon
        exact LoopResult.noConfusion hcon
      | some out =>
        intro hcon
        exact LoopResult.noConfusion hcon
    · simp only [hcc]
      intro hcon
      exact LoopResult.noConfusion hcon

/-- Witness for C6: transfer of total 2 holding part 1, timed out at
instant 6 with timeout 5 and last part at instant 0. -/
theorem c6_stall_witness :
    (runIters 2048 5 none cexSt ((6, none) :: []) = LoopResult.stalled (saveDraftAndExit 2048 cexSt)
      ∧ ∃ M dr, saveDraftAndExit 2048 cexSt = SaveResult.saved M dr
          ∧ M.missing.length = 2 - [1].length)
    ∧ (∀ (st2 : RecvState) (now2 : ℚ) (obs2 : Option Json) (r : SaveResult),
        st2.total = none → stepIter 2048 5 none st2 now2 obs2 ≠ LoopResult.stalled r) :=
  c6_stall 2048 5 6 none cexSt 2 [1] (Json.str ['a']) none []
    (by decide) (by decide) (by decide) (by decide) (by decide) (by decide) (by decide)
    (by norm_num [cexSt])

theorem seqFrom_append : ∀ (a b s : Nat), seqFrom s (a + b) = seqFrom s a ++ seqFrom (s + a) b := by
  intro a
  induction a with
  | zero => intro b s; simp [seqFrom]
  | succ a ih =>
    intro b s
    have h1 : a + 1 + b = (a + b) + 1 := by omega
    rw [h1]
    show s :: seqFrom (s + 1) (a + b) = (s :: seqFrom (s + 1) a) ++ seqFrom (s + (a + 1)) b
    rw [List.cons_append, ih b (s + 1)]
    have h2 : s + 1 + a = s + (a + 1) := by omega
    rw [h2]

theorem flatten_map_length_const (c : Nat) (blk : Nat → List Nat) :
    ∀ l : List Nat, (∀ i ∈ l, (blk i).length = c) →
      ((l.map blk).flatten).length = l.length * c := by
  intro l
  induction l with
  | nil => intro _; simp
  | cons a l ih =>
    intro h
    rw [List.map_cons, List.flatten_cons, List.length_append,
      ih (fun i hi => h i (List.mem_cons_of_mem a hi)), h a (List.mem_cons_self a l),
      List.length_cons]
    ring

/-- The draft-writing loop produces exactly the concatenation of per-part
blocks: the decoded stored chunk for present parts, nothing for a missing
final part, `c` zero bytes for a missing non-final part. -/
theorem draftGo_flatten (c N : Nat) (m : List (Json × Json)) (blk : Nat → List Nat)
    (h : ∀ i, 1 ≤ i → i ≤ N →
       (match assocGet m (Json.int (Int.ofNat i)) with
        | some v => b64ofJson v
        | none => if i = N then some [] else some (List.replicate c 0)) = some (blk i)) :
    ∀ (k i : Nat), 1 ≤ i → i + k = N + 1 → draftGo c N m i k = some (((seqFrom i k).map blk).flatten) := by
  intro k
  induction k with
  | zero => intro i _ _; rfl
  | succ k ih =>
    intro i hi1 hik
    have hiN : i ≤ N := by omega
    have hblk := h i hi1 hiN
    show (match (match assocGet m (Json.int (Int.ofNat i)) with
        | some v => b64ofJson v
        | none => if i = N then some [] else some (List.replicate c 0)) with
      | none => none
      | some b =>
        match draftGo c N m (i + 1) k with
        | none => none
        | some rest => some (b ++ rest)) = _
    rw [hblk, ih (i + 1) (by omega) (by omega)]
    show some (blk i ++ ((seqFrom (i + 1) k).map blk).flatten) = _
    rw [show seqFrom i (k + 1) = i :: seqFrom (i + 1) k from rfl, List.map_cons,
      List.flatten_cons]

theorem hasKey_assocGet (m : List (Json × Json)) (k : Json) :
    hasKey m k = true ↔ ∃ v, assocGet m k = some v := by
  induction m with
  | nil => simp [hasKey, assocGet]
  | cons kv rest ih =>
    by_cases hk : kv.fst = k
    · simp [hasKey, assocGet, hk]
    · have h1 : hasKey (kv :: rest) k = hasKey rest k := by
        simp [hasKey, hk]
      have h2 : assocGet (kv :: rest) k = assocGet rest k := by
        show (if kv.fst = k then some kv.snd else assocGet rest k) = assocGet rest k
        rw [if_neg hk]
      rw [h1, h2]
      exact ih

/-- Claim C7: draft shape on stall.  When the receiver stalls with a
non-empty gap set, the save path writes the manifest listing exactly the
missing parts in ascending order, and a draft where every received part's
decoded bytes sit at their true offset `(p-1)*c`, every missing non-final
part is exactly `c` zero bytes, and a missing final part contributes no
bytes (the draft ends after block `N-1`).  The receiver's concrete
5000-byte/2048-chunk scenario with parts 1 and 3 received is the instance
`c = 2048, N = 3`. -/
theorem c7_draft_shape (c N : Nat) (st : RecvState) (fnj : Json)
    (s : Nat → List Char) (B : Nat → List Nat) (R : Nat → Bool)
    (hc : 1 ≤ c) (hN : 1 ≤ N)
    (htot : st.total = some (Json.int (Int.ofNat N)))
    (hfn : st.filename = some fnj)
    (hR : ∀ i, i ≤ N → 1 ≤ i →
      (if R i = true then
        assocGet st.chunks (Json.int (Int.ofNat i)) = some (Json.str (s i))
          ∧ b64decode (s i) = some (B i)
       else assocGet st.chunks (Json.int (Int.ofNat i)) = none))
    (hlenB : ∀ i, i < N → 1 ≤ i → R i = true → (B i).length = c)
    (hmiss : ∃ i, 1 ≤ i ∧ i ≤ N ∧ R i = false) :
    ∃ D, saveDraftAndExit c st
        = SaveResult.saved ⟨fnj, Int.ofNat N, (seqFrom 1 N).filter (fun i => !(R i))⟩ (some D)
      ∧ (∀ p, p ≤ N → 1 ≤ p → R p = true → (D.drop ((p - 1) * c)).take (B p).length = B p)
      ∧ (∀ p, p < N → 1 ≤ p → R p = false → (D.drop ((p - 1) * c)).take c = List.replicate c 0)
      ∧ D.length = (N - 1) * c + (if R N = true then (B N).length else 0) := by
  have hblkdef : ∀ i, 1 ≤ i → i ≤ N →
      (match assocGet st.chunks (Json.int (Int.ofNat i)) with
        | some v => b64ofJson v
        | none => if i = N then some [] else some (List.replicate c 0))
      = some (if R i = true then B i else if i = N then [] else List.replicate c 0) := by
    intro i hi1 hiN
    have hRi := hR i hiN hi1
    by_cases hri : R i = true
    · rw [if_pos hri] at hRi
      rw [hRi.1]
      show b64decode (s i) = _
      rw [hRi.2, if_pos hri]
    · rw [if_neg hri] at hRi
      rw [hRi]
      show (if i = N then some [] else some (List.replicate c 0)) = _
      rw [if_neg hri]
      by_cases hiN2 : i = N
      · rw [if_pos hiN2, if_pos hiN2]
      · rw [if_neg hiN2, if_neg hiN2]
  set blk : Nat → List Nat :=
    fun i => if R i = true then B i else if i = N then [] else List.replicate c 0 with hblk
  have hD := draftGo_flatten c N st.chunks blk
    (fun i h1 h2 => hblkdef i h1 h2) N 1 (by omega) (by omega)
  have hHK : ∀ i, 1 ≤ i → i ≤ N → hasKey st.chunks (Json.int (Int.ofNat i)) = R i := by
    intro i hi1 hiN
    have hRi := hR i hiN hi1
    by_cases hri : R i = true
    · rw [if_pos hri] at hRi
      rw [hri]
      exact (hasKey_assocGet _ _).mpr ⟨_, hRi.1⟩
    · rw [if_neg hri] at hRi
      have hfalse : hasKey st.chunks (Json.int (Int.ofNat i)) = false := by
        cases hb : hasKey st.chunks (Json.int (Int.ofNat i)) with
        | false => rfl
        | true =>
          obtain ⟨v, hv⟩ := (hasKey_assocGet _ _).mp hb
          rw [hRi] at hv
          cases hv
      rw [hfalse]
      cases hb2 : R i with
      | false => rfl
      | true => exact absurd hb2 hri
  have hfiltcong : (seqFrom 1 N).filter (fun i => !(hasKey st.chunks (Json.int (Int.ofNat i))))
      = (seqFrom 1 N).filter (fun i => !(R i)) := by
    apply List.filter_congr
    intro i hi
    have hb := (mem_seqFrom _ 1 i).mp hi
    rw [hHK i hb.1 (by omega)]
  -- lengths of block prefixes
  have hblklen : ∀ i, 1 ≤ i → i < N → (blk i).length = c := by
    intro i hi1 hiN
    by_cases hri : R i = true
    · rw [hblk]
      dsimp only
      rw [if_pos hri]
      exact hlenB i hiN hi1 hri
    · rw [hblk]
      dsimp only
      rw [if_neg hri, if_neg (by omega), List.length_replicate]
  have hdropAt : ∀ p, 1 ≤ p → p ≤ N →
      (((seqFrom 1 N).map blk).flatten).drop ((p - 1) * c)
        = ((seqFrom p (N - p + 1)).map blk).flatten := by
    intro p hp1 hpN
    have hsplit : seqFrom 1 N = seqFrom 1 (p - 1) ++ seqFrom p (N - p + 1) := by
      have h1 : N = (p - 1) + (N - p + 1) := by omega
      have h2 : 1 + (p - 1) = p := by omega
      conv_lhs => rw [h1, seqFrom_append]
      rw [h2]
    have hpre : (((seqFrom 1 (p - 1)).map blk).flatten).length = (p - 1) * c := by
      rw [flatten_map_length_const c blk _ ?hall, seqFrom_length]
      case hall =>
        intro i hi
        have hb := (mem_seqFrom _ 1 i).mp hi
        exact hblklen i hb.1 (by omega)
    rw [hsplit, List.map_append, List.flatten_append, ← hpre, List.drop_left]
  refine ⟨((seqFrom 1 N).map blk).flatten, ?_, ?_, ?_, ?_⟩
  · -- the saved manifest and draft
    unfold saveDraftAndExit
    rw [htot, hfn]
    dsimp only
    rw [show (Int.ofNat N).toNat = N from rfl]
    rw [hfiltcong]
    obtain ⟨i0, hi01, hi0N, hi0R⟩ := hmiss
    have hne : ¬ ((seqFrom 1 N).filter (fun i => !(R i))).isEmpty = true := by
      rw [List.isEmpty_iff]
      intro hnil
      have hmem : i0 ∈ (seqFrom 1 N).filter (fun i => !(R i)) := by
        rw [List.mem_filter]
        exact ⟨(mem_seqFrom N 1 i0).mpr (by omega), by rw [hi0R]; rfl⟩
      rw [hnil] at hmem
      cases hmem
    rw [if_neg hne]
    unfold draftBytesOf
    rw [hD]
  · -- received parts at their true offsets
    intro p hpN hp1 hpr
    rw [hdropAt p hp1 hpN]
    have hcons : seqFrom p (N - p + 1) = p :: seqFrom (p + 1) (N - p) := by
      rw [show N - p + 1 = (N - p) + 1 from rfl]
      rfl
    rw [hcons, List.map_cons, List.flatten_cons]
    have hbp : blk p = B p := by rw [hblk]; dsimp only; rw [if_pos hpr]
    rw [hbp]
    exact List.take_left ..
  · -- missing non-final parts are c zero bytes
    intro p hpN hp1 hpr
    rw [hdropAt p hp1 (by omega)]
    have hcons : seqFrom p (N - p + 1) = p :: seqFrom (p + 1) (N - p) := by
      rw [show N - p + 1 = (N - p) + 1 from rfl]
      rfl
    rw [hcons, List.map_cons, List.flatten_cons]
    have hbp : blk p = List.replicate c 0 := by
      rw [hblk]
      dsimp only
      rw [if_neg (by rw [hpr]; exact Bool.false_ne_true), if_neg (by omega)]
    rw [hbp]
    have htake : ∀ (l r : List Nat) (n : Nat), l.length = n → (l ++ r).take n = l := by
      intro l r n h
      subst h
      exact List.take_left ..
    exact htake _ _ _ (List.length_replicate ..)
  · -- total draft length
    have hsplit : seqFrom 1 N = seqFrom 1 (N - 1) ++ seqFrom N 1 := by
      have h1 : N = (N - 1) + 1 := by omega
      have h2 : 1 + (N - 1) = N := by omega
      conv_lhs => rw [h1]
      rw [seqFrom_append, h2]
    rw [hsplit, List.map_append, List.flatten_append, List.length_append]
    have hpre : (((seqFrom 1 (N - 1)).map blk).flatten).length = (N - 1) * c := by
      rw [flatten_map_length_const c blk _ ?hall2, seqFrom_length]
      case hall2 =>
        intro i hi
        have hb := (mem_seqFrom _ 1 i).mp hi
        exact hblklen i hb.1 (by omega)
    rw [hpre]
    congr 1
    show ((List.map blk [N]).flatten).length = _
    rw [List.map_cons, List.map_nil, List.flatten_cons, List.flatten_nil, List.append_nil]
    by_cases hrN : R N = true
    · rw [if_pos hrN, hblk]
      dsimp only
      rw [if_pos hrN]
    · rw [if_neg hrN, hblk]
      dsimp only
      rw [if_neg hrN, if_pos rfl, List.length_nil]

/-- Witness for C7: chunk size 2, total 3, parts 1 and 3 received (2 and 1
bytes), part 2 missing: the draft is `[1, 2, 0, 0, 5]` — part 3's bytes at
offset 4 — and the manifest lists exactly part 2. -/
theorem c7_draft_shape_witness :
    ∃ D, saveDraftAndExit 2 ⟨[(Json.int 1, Json.str (b64encode [1, 2])),
          (Json.int 3, Json.str (b64encode [5]))], some (Json.int (Int.ofNat 3)),
          some (Json.str ['a']), 0⟩
        = SaveResult.saved ⟨Json.str ['a'], Int.ofNat 3, [2]⟩ (some D)
      ∧ (∀ p, p ≤ 3 → 1 ≤ p → (decide (p = 1) || decide (p = 3)) = true →
          (D.drop ((p - 1) * 2)).take
              (if p = 1 then [1, 2] else if p = 3 then [5] else ([] : List Nat)).length
            = (if p = 1 then [1, 2] else if p = 3 then [5] else ([] : List Nat)))
      ∧ (∀ p, p < 3 → 1 ≤ p → (decide (p = 1) || decide (p = 3)) = false →
          (D.drop ((p - 1) * 2)).take 2 = List.replicate 2 0)
      ∧ D.length = 5 :=
  c7_draft_shape 2 3
    ⟨[(Json.int 1, Json.str (b64encode [1, 2])), (Json.int 3, Json.str (b64encode [5]))],
      some (Json.int (Int.ofNat 3)), some (Json.str ['a']), 0⟩
    (Json.str ['a'])
    (fun i => if i = 1 then b64encode [1, 2] else b64encode [5])
    (fun i => if i = 1 then [1, 2] else if i = 3 then [5] else [])
    (fun i => decide (i = 1) || decide (i = 3))
    (by decide) (by decide) rfl rfl (by decide) (by decide) ⟨2, by decide⟩

theorem take_append_len {α : Type} (l r : List α) (n : Nat) (h : l.length = n) :
    (l ++ r).take n = l := by
  subst h
  exact List.take_left ..

theorem drop_append_len {α : Type} (l r : List α) (n : Nat) (h : l.length = n) :
    (l ++ r).drop n = r := by
  subst h
  exact List.drop_left ..

theorem mkChunks_keys (F : List Nat) (c : Nat) (L : List Nat) :
    (mkChunks F c L).map Prod.fst = L.map (fun p => Json.int (Int.ofNat p)) := by
  unfold mkChunks
  rw [List.map_map]
  rfl

theorem hasKey_mkChunks (F : List Nat) (c : Nat) (L : List Nat) (p : Nat) :
    (hasKey (mkChunks F c L) (Json.int (Int.ofNat p)) = true) ↔ p ∈ L :=
  hasKey_keys_int (mkChunks F c L) L p (mkChunks_keys F c L)

theorem assocGet_mkChunks (F : List Nat) (c : Nat) :
    ∀ (L : List Nat) (i : Nat),
      assocGet (mkChunks F c L) (Json.int (Int.ofNat i))
        = if i ∈ L then some (Json.str (b64encode (chunkOf F c i))) else none := by
  intro L
  induction L with
  | nil => intro i; simp [mkChunks, assocGet]
  | cons a L ih =>
    intro i
    show (if Json.int (Int.ofNat a) = Json.int (Int.ofNat i) then
        some (Json.str (b64encode (chunkOf F c a)))
      else assocGet (mkChunks F c L) (Json.int (Int.ofNat i))) = _
    by_cases hai : a = i
    · subst hai
      rw [if_pos rfl, if_pos (List.mem_cons_self a L)]
    · have hne : Json.int (Int.ofNat a) ≠ Json.int (Int.ofNat i) := by
        intro hcon
        injection hcon with h
        exact hai (Int.ofNat.inj h)
      rw [if_neg hne, ih i]
      by_cases hiL : i ∈ L
      · rw [if_pos hiL, if_pos (List.mem_cons_of_mem a hiL)]
      · rw [if_neg hiL, if_neg (by
          intro hcon
          rcases List.mem_cons.mp hcon with he | hm
          · exact hai he.symm
          · exact hiL hm)]

theorem assocSet_not_mem : ∀ (m : List (Json × Json)) (k v : Json),
    hasKey m k = false → assocSet m k v = m ++ [(k, v)] := by
  intro m
  induction m with
  | nil => intro k v _; rfl
  | cons kv rest ih =>
    intro k v h
    have h1 : kv.fst ≠ k := by
      intro hcon
      rw [hasKey] at h
      simp [hcon] at h
    show (if kv.fst = k then (k, v) :: rest else kv :: assocSet rest k v) = _
    rw [if_neg h1, ih k v (by
      rw [hasKey] at h ⊢
      simp only [List.any_cons] at h
      exact (Bool.or_eq_false_iff.mp h).2)]
    rfl

theorem mkChunks_append (F : List Nat) (c : Nat) (L : List Nat) (p : Nat) :
    mkChunks F c (L ++ [p]) = mkChunks F c L
      ++ [(Json.int (Int.ofNat p), Json.str (b64encode (chunkOf F c p)))] := by
  unfold mkChunks
  rw [List.map_append]
  rfl

theorem chunk_mem_lt (F : List Nat) (c p : Nat) (hb : ∀ x ∈ F, x < 256) :
    ∀ x ∈ chunkOf F c p, x < 256 := by
  intro x hx
  unfold chunkOf at hx
  exact hb x (List.mem_of_mem_drop (List.mem_of_mem_take hx))

/-- Frame processing during COLLECTING consults only the `p` and `d`
fields (shared engine behind several claims). -/
theorem feed_total_some (c : Nat) (draft : Option (List Nat)) (now : ℚ) (st : RecvState)
    (payload pn bd : Json)
    (htot : st.total.isSome = true)
    (hp : jget payload keyP = some pn)
    (hd : jget payload keyD = some bd)
    (hh : hashableKey pn = true) :
    feed c draft now st payload =
      if hasKey st.chunks pn then st
      else { st with lastPartFoundTime := now, chunks := assocSet st.chunks pn bd } := by
  obtain ⟨t, ht⟩ := Option.isSome_iff_exists.mp htot
  unfold feed
  rw [hp, hd, ht]
  by_cases hk : hasKey st.chunks pn
  · simp [hh, hk]
  · simp [hh, hk]

/-- Handling of the first frame from the initial state: the transfer's
identity is recorded from the frame, the draft (if any) is loaded and the
frame's part stored. -/
theorem feed_first (c : Nat) (draft : Option (List Nat)) (t0 now : ℚ)
    (F : List Nat) (N : Nat) (fn : List Char) (p : Nat) :
    feed c draft now (initState t0) (senderPayload F c N fn p) =
      ⟨assocSet (match draft with | some db => loadDraft c [] db N | none => [])
          (Json.int (Int.ofNat p)) (Json.str (b64encode (chunkOf F c p))),
        some (Json.int (Int.ofNat N)), some (Json.str fn), now⟩ := by
  cases draft with
  | none => rfl
  | some db => rfl

theorem nodup_bounded_length_le (L : List Nat) (N : Nat) (hnd : L.Nodup)
    (hL : ∀ q ∈ L, 1 ≤ q ∧ q ≤ N) : L.length ≤ N := by
  have hsub : L ⊆ seqFrom 1 N := by
    intro q hq
    exact (mem_seqFrom N 1 q).mpr (by have := hL q hq; omega)
  have h := (hnd.subperm hsub).length_le
  rwa [seqFrom_length] at h

theorem covers_of_full (L : List Nat) (N : Nat) (hnd : L.Nodup)
    (hL : ∀ q ∈ L, 1 ≤ q ∧ q ≤ N) (hlen : L.length = N) :
    ∀ j, 1 ≤ j → j ≤ N → j ∈ L := by
  have hsub : L ⊆ seqFrom 1 N := by
    intro q hq
    exact (mem_seqFrom N 1 q).mpr (by have := hL q hq; omega)
  have hperm : List.Perm L (seqFrom 1 N) :=
    (hnd.subperm hsub).perm_of_length_le (by rw [seqFrom_length, hlen])
  intro j hj1 hjN
  exact hperm.mem_iff.mpr ((mem_seqFrom N 1 j).mpr (by omega))

theorem assembleGo_mkChunks (F : List Nat) (c : Nat) (L : List Nat)
    (hb : ∀ x ∈ F, x < 256) :
    ∀ (k i : Nat), (∀ j, i ≤ j → j < i + k → j ∈ L) →
      assembleGo (mkChunks F c L) i k = some (((seqFrom i k).map (chunkOf F c)).flatten) := by
  intro k
  induction k with
  | zero => intro i _; rfl
  | succ k ih =>
    intro i hcov
    have hiL : i ∈ L := hcov i le_rfl (by omega)
    show (match assocGet (mkChunks F c L) (Json.int (Int.ofNat i)) with
      | none => none
      | some v =>
        match b64ofJson v with
        | none => none
        | some bs =>
          match assembleGo (mkChunks F c L) (i + 1) k with
          | none => none
          | some rest => some (bs ++ rest)) = _
    rw [assocGet_mkChunks F c L i, if_pos hiL]
    show (match b64decode (b64encode (chunkOf F c i)) with
      | none => none
      | some bs =>
        match assembleGo (mkChunks F c L) (i + 1) k with
        | none => none
        | some rest => some (bs ++ rest)) = _
    rw [b64_roundtrip (chunkOf F c i) (chunk_mem_lt F c i hb),
      ih (i + 1) (fun j h1 h2 => hcov j (by omega) (by omega))]
    show some (chunkOf F c i ++ ((seqFrom (i + 1) k).map (chunkOf F c)).flatten) = _
    rw [show seqFrom i (k + 1) = i :: seqFrom (i + 1) k from rfl, List.map_cons,
      List.flatten_cons]

theorem assembleRun_mkState_full (F : List Nat) (c N : Nat) (fn : List Char) (t0 : ℚ)
    (L : List Nat) (hc : 1 ≤ c) (hb : ∀ x ∈ F, x < 256)
    (hN : N = totalParts F.length c)
    (hnd : L.Nodup) (hL : ∀ q ∈ L, 1 ≤ q ∧ q ≤ N) (hlen : L.length = N) :
    assembleRun (mkState F c N fn t0 L) = some F := by
  show assembleGo (mkChunks F c L) 1 (Int.ofNat N).toNat = some F
  rw [show (Int.ofNat N).toNat = N from rfl]
  rw [assembleGo_mkChunks F c L hb N 1
    (fun j h1 h2 => covers_of_full L N hnd hL hlen j h1 (by omega))]
  subst hN
  rw [chunks_join c hc F.length F rfl]

/-- One collecting-phase iteration fed the sender's frame for part `p`:
a duplicate is a no-op, a new part is stored, and the instant the stored
part count reaches the total the loop completes with the original file. -/
theorem step_mkState (F : List Nat) (c N : Nat) (fn : List Char) (t0 T : ℚ)
    (draft : Option (List Nat)) (L : List Nat) (p : Nat)
    (hc : 1 ≤ c) (hT : 0 ≤ T) (hb : ∀ x ∈ F, x < 256)
    (hN : N = totalParts F.length c)
    (hnd : L.Nodup) (hL : ∀ q ∈ L, 1 ≤ q ∧ q ≤ N)
    (hlen : L.length < N) (hp1 : 1 ≤ p) (hpN : p ≤ N) :
    stepIter c T draft (mkState F c N fn t0 L) t0 (some (senderPayload F c N fn p)) =
      if p ∈ L then LoopResult.running (mkState F c N fn t0 L)
      else if L.length + 1 = N then LoopResult.completed F
      else LoopResult.running (mkState F c N fn t0 (L ++ [p])) := by
  have hmlen : (mkChunks F c L).length = L.length := by
    unfold mkChunks
    rw [List.length_map]
  have hstall : stallTimeout T t0 (mkState F c N fn t0 L) = some false := by
    show some (_ && decide (t0 - t0 > T)) = some false
    have h2 : ¬ (t0 - t0 > T) := by
      rw [sub_self]
      exact not_lt.mpr hT
    simp [h2]
    exact fun _ => hT
  have hfeed := feed_total_some c draft t0 (mkState F c N fn t0 L)
      (senderPayload F c N fn p) (Json.int (Int.ofNat p))
      (Json.str (b64encode (chunkOf F c p))) rfl rfl rfl rfl
  unfold stepIter
  rw [hstall]
  dsimp only
  rw [hfeed]
  by_cases hpL : p ∈ L
  · have hk : hasKey (mkState F c N fn t0 L).chunks (Json.int (Int.ofNat p)) = true :=
      (hasKey_mkChunks F c L p).mpr hpL
    rw [hk, if_pos rfl, if_pos hpL]
    have hcomp : isComplete (mkState F c N fn t0 L) = false := by
      show decide (((mkChunks F c L).length : Int) = Int.ofNat N) = false
      rw [hmlen]
      have hne : ¬ ((L.length : Int) = Int.ofNat N) := by
        intro hcon
        exact (Nat.ne_of_lt hlen) (Int.ofNat.inj hcon)
      exact decide_eq_false hne
    rw [hcomp]
    rfl
  · have hk : hasKey (mkState F c N fn t0 L).chunks (Json.int (Int.ofNat p)) = false := by
      cases hb2 : hasKey (mkState F c N fn t0 L).chunks (Json.int (Int.ofNat p)) with
      | false => rfl
      | true => exact absurd ((hasKey_mkChunks F c L p).mp hb2) hpL
    rw [hk, if_neg Bool.false_ne_true, if_neg hpL]
    have hset : ({ mkState F c N fn t0 L with
        lastPartFoundTime := t0,
        chunks := assocSet (mkState F c N fn t0 L).chunks (Json.int (Int.ofNat p))
          (Json.str (b64encode (chunkOf F c p))) })
        = mkState F c N fn t0 (L ++ [p]) := by
      show (⟨assocSet (mkChunks F c L) (Json.int (Int.ofNat p))
          (Json.str (b64encode (chunkOf F c p))),
        some (Json.int (Int.ofNat N)), some (Json.str fn), t0⟩ : RecvState) = _
      have hk2 : hasKey (mkChunks F c L) (Json.int (Int.ofNat p)) = false := hk
      rw [assocSet_not_mem _ _ _ hk2, ← mkChunks_append]
      rfl
    rw [hset]
    have hnd' : (L ++ [p]).Nodup := by
      rw [List.nodup_append]
      refine ⟨hnd, List.nodup_singleton p, ?_⟩
      intro q hq hq2
      have hqp : q = p := by simpa using hq2
      exact hpL (hqp ▸ hq)
    have hL' : ∀ q ∈ L ++ [p], 1 ≤ q ∧ q ≤ N := by
      intro q hq
      rcases List.mem_append.mp hq with h | h
      · exact hL q h
      · have : q = p := by simpa using h
        subst this
        exact ⟨hp1, hpN⟩
    by_cases hful : L.length + 1 = N
    · have hcomp : isComplete (mkState F c N fn t0 (L ++ [p])) = true := by
        show decide (((mkChunks F c (L ++ [p])).length : Int) = Int.ofNat N) = true
        have hmlen2 : (mkChunks F c (L ++ [p])).length = L.length + 1 := by
          unfold mkChunks
          rw [List.length_map, List.length_append, List.length_singleton]
        rw [hmlen2, hful]
        simp
      rw [hcomp, if_pos hful]
      have hasm := assembleRun_mkState_full F c N fn t0 (L ++ [p]) hc hb hN hnd' hL'
        (by rw [List.length_append, List.length_singleton, hful])
      show (match assembleRun (mkState F c N fn t0 (L ++ [p])) with
        | some out => LoopResult.completed out
        | none => LoopResult.fatal (mkState F c N fn t0 (L ++ [p]))) = _
      rw [hasm]
    · have hcomp : isComplete (mkState F c N fn t0 (L ++ [p])) = false := by
        show decide (((mkChunks F c (L ++ [p])).length : Int) = Int.ofNat N) = false
        have hmlen2 : (mkChunks F c (L ++ [p])).length = L.length + 1 := by
          unfold mkChunks
          rw [List.length_map, List.length_append, List.length_singleton]
        rw [hmlen2]
        exact decide_eq_false (fun hcon => by
          have hcon2 : ((L.length + 1 : Nat) : Int) = ((N : Nat) : Int) := hcon
          exact hful (by exact_mod_cast hcon2))
      rw [hcomp, if_neg hful]
      rfl

/-- Running the collecting loop from a state holding the parts of `L`, fed
sender frames for any part list that together with `L` covers `1..N`,
reaches COMPLETE with the original file bytes. -/
theorem run_completes (F : List Nat) (c N : Nat) (fn : List Char) (t0 T : ℚ)
    (draft : Option (List Nat))
    (hc : 1 ≤ c) (hT : 0 ≤ T) (hb : ∀ x ∈ F, x < 256)
    (hN : N = totalParts F.length c) :
    ∀ (ps L : List Nat), L.Nodup → (∀ q ∈ L, 1 ≤ q ∧ q ≤ N) →
      (∀ q ∈ ps, 1 ≤ q ∧ q ≤ N) → L.length < N →
      (∀ j, 1 ≤ j → j ≤ N → j ∈ L ∨ j ∈ ps) →
      runIters c T draft (mkState F c N fn t0 L) (frameEvents F c N fn t0 ps)
        = LoopResult.completed F := by
  intro ps
  induction ps with
  | nil =>
    intro L hnd hL _ hlen hcov
    exfalso
    have hsub : seqFrom 1 N ⊆ L := by
      intro q hq
      have hqb := (mem_seqFrom N 1 q).mp hq
      rcases hcov q hqb.1 (by omega) with h | h
      · exact h
      · cases h
    have hle := ((seqFrom_nodup N 1).subperm hsub).length_le
    rw [seqFrom_length] at hle
    omega
  | cons p ps ih =>
    intro L hnd hL hps hlen hcov
    have hp := hps p (List.mem_cons_self p ps)
    have hstep := step_mkState F c N fn t0 T draft L p hc hT hb hN hnd hL hlen hp.1 hp.2
    show runIters c T draft (mkState F c N fn t0 L)
        ((t0, some (senderPayload F c N fn p)) :: frameEvents F c N fn t0 ps) = _
    simp only [runIters]
    rw [hstep]
    by_cases hpL : p ∈ L
    · rw [if_pos hpL]
      exact ih L hnd hL (fun q hq => hps q (List.mem_cons_of_mem p hq)) hlen
        (fun j h1 h2 => by
          rcases hcov j h1 h2 with h | h
          · exact Or.inl h
          · rcases List.mem_cons.mp h with he | hm
            · exact Or.inl (he ▸ hpL)
            · exact Or.inr hm)
    · rw [if_neg hpL]
      by_cases hful : L.length + 1 = N
      · rw [if_pos hful]
      · rw [if_neg hful]
        have hnd' : (L ++ [p]).Nodup := by
          rw [List.nodup_append]
          refine ⟨hnd, List.nodup_singleton p, ?_⟩
          intro q hq hq2
          have hqp : q = p := by simpa using hq2
          exact hpL (hqp ▸ hq)
        have hL' : ∀ q ∈ L ++ [p], 1 ≤ q ∧ q ≤ N := by
          intro q hq
          rcases List.mem_append.mp hq with h | h
          · exact hL q h
          · have hqp : q = p := by simpa using h
            subst hqp
            exact hp
        have hlen' : (L ++ [p]).length < N := by
          have hle := nodup_bounded_length_le (L ++ [p]) N hnd' hL'
          rw [List.length_append, List.length_singleton] at hle ⊢
          omega
        exact ih (L ++ [p]) hnd' hL' (fun q hq => hps q (List.mem_cons_of_mem p hq)) hlen'
          (fun j h1 h2 => by
            rcases hcov j h1 h2 with h | h
            · exact Or.inl (List.mem_append.mpr (Or.inl h))
            · rcases List.mem_cons.mp h with he | hm
              · exact Or.inl (List.mem_append.mpr (Or.inr (by simp [he])))
              · exact Or.inr hm)

/-- A full receiver run from the idle state: the first frame records the
transfer identity and pre-populates from a draft whose strides hold exactly
the parts of `L0`; fed frames covering the rest, the run completes with the
file bytes. -/
theorem run_from_first (F : List Nat) (c N : Nat) (fn : List Char) (t0 T : ℚ)
    (draft : Option (List Nat)) (L0 : List Nat) (p1 : Nat) (ps : List Nat)
    (hc : 1 ≤ c) (hT : 0 ≤ T) (hb : ∀ x ∈ F, x < 256)
    (hN : N = totalParts F.length c)
    (hch1 : (match draft with | some db => loadDraft c [] db N | none => []) = mkChunks F c L0)
    (hnd0 : L0.Nodup) (hL0 : ∀ q ∈ L0, 1 ≤ q ∧ q ≤ N)
    (hp1 : 1 ≤ p1) (hp1N : p1 ≤ N) (hp1n : p1 ∉ L0)
    (hps : ∀ q ∈ ps, 1 ≤ q ∧ q ≤ N)
    (hcov : ∀ j, 1 ≤ j → j ≤ N → j ∈ (L0 ++ [p1]) ∨ j ∈ ps) :
    runIters c T draft (initState t0) (frameEvents F c N fn t0 (p1 :: ps))
      = LoopResult.completed F := by
  have hfeed := feed_first c draft t0 t0 F N fn p1
  rw [hch1] at hfeed
  have hk0 : hasKey (mkChunks F c L0) (Json.int (Int.ofNat p1)) = false := by
    cases hb2 : hasKey (mkChunks F c L0) (Json.int (Int.ofNat p1)) with
    | false => rfl
    | true => exact absurd ((hasKey_mkChunks F c L0 p1).mp hb2) hp1n
  have hst1 : feed c draft t0 (initState t0) (senderPayload F c N fn p1)
      = mkState F c N fn t0 (L0 ++ [p1]) := by
    rw [hfeed, assocSet_not_mem _ _ _ hk0, ← mkChunks_append]
    rfl
  have hnd' : (L0 ++ [p1]).Nodup := by
    rw [List.nodup_append]
    refine ⟨hnd0, List.nodup_singleton p1, ?_⟩
    intro q hq hq2
    have hqp : q = p1 := by simpa using hq2
    exact hp1n (hqp ▸ hq)
  have hL' : ∀ q ∈ L0 ++ [p1], 1 ≤ q ∧ q ≤ N := by
    intro q hq
    rcases List.mem_append.mp hq with h | h
    · exact hL0 q h
    · have hqp : q = p1 := by simpa using h
      subst hqp
      exact ⟨hp1, hp1N⟩
  have hmlen1 : (mkChunks F c (L0 ++ [p1])).length = L0.length + 1 := by
    unfold mkChunks
    rw [List.length_map, List.length_append, List.length_singleton]
  have hstep1 : stepIter c T draft (initState t0) t0 (some (senderPayload F c N fn p1))
      = if L0.length + 1 = N then LoopResult.completed F
        else LoopResult.running (mkState F c N fn t0 (L0 ++ [p1])) := by
    unfold stepIter
    rw [show stallTimeout T t0 (initState t0) = some false from rfl]
    dsimp only
    rw [hst1]
    by_cases hful : L0.length + 1 = N
    · have hcomp : isComplete (mkState F c N fn t0 (L0 ++ [p1])) = true := by
        show decide (((mkChunks F c (L0 ++ [p1])).length : Int) = Int.ofNat N) = true
        rw [hmlen1, hful]
        simp
      rw [hcomp, if_pos hful]
      have hasm := assembleRun_mkState_full F c N fn t0 (L0 ++ [p1]) hc hb hN hnd' hL'
        (by rw [List.length_append, List.length_singleton, hful])
      show (match assembleRun (mkState F c N fn t0 (L0 ++ [p1])) with
        | some out => LoopResult.completed out
        | none => LoopResult.fatal (mkState F c N fn t0 (L0 ++ [p1]))) = _
      rw [hasm]
    · have hcomp : isComplete (mkState F c N fn t0 (L0 ++ [p1])) = false := by
        show decide (((mkChunks F c (L0 ++ [p1])).length : Int) = Int.ofNat N) = false
        rw [hmlen1]
        exact decide_eq_false (fun hcon => by
          have hcon2 : ((L0.length + 1 : Nat) : Int) = ((N : Nat) : Int) := hcon
          exact hful (by exact_mod_cast hcon2))
      rw [hcomp, if_neg hful]
      rfl
  show runIters c T draft (initState t0)
      ((t0, some (senderPayload F c N fn p1)) :: frameEvents F c N fn t0 ps) = _
  simp only [runIters]
  rw [hstep1]
  by_cases hful : L0.length + 1 = N
  · rw [if_pos hful]
  · rw [if_neg hful]
    have hlen' : (L0 ++ [p1]).length < N := by
      have hle := nodup_bounded_length_le (L0 ++ [p1]) N hnd' hL'
      rw [List.length_append, List.length_singleton] at hle ⊢
      omega
    exact run_completes F c N fn t0 T draft hc hT hb hN ps (L0 ++ [p1]) hnd' hL' hps hlen' hcov

/-- Claim C5: order and duplicate invariance.  A receiver fed the sender's
frames for parts of one transfer, in any order and with any duplicates, as
long as they cover `1..total`, reaches COMPLETE with exactly the original
file bytes (the order-free result) — the same for every covering order;
and a frame whose part number is already present is a no-op, so the first
stored value for a part is kept. -/
theorem c5_order_invariance (F : List Nat) (c : Nat) (fn : List Char) (ps : List Nat)
    (t0 T : ℚ)
    (hc : 1 ≤ c) (hF : 1 ≤ F.length) (hb : ∀ x ∈ F, x < 256) (hT : 0 ≤ T)
    (hpsmem : ∀ p ∈ ps, 1 ≤ p ∧ p ≤ totalParts F.length c)
    (hcov : ∀ p, p ≤ totalParts F.length c → 1 ≤ p → p ∈ ps) :
    runIters c T none (initState t0) (frameEvents F c (totalParts F.length c) fn t0 ps)
      = LoopResult.completed F
    ∧ (∀ (draft : Option (List Nat)) (now : ℚ) (st : RecvState) (pay pn : Json),
        st.total.isSome = true → jget pay keyP = some pn → hasKey st.chunks pn = true →
        feed c draft now st pay = st) := by
  constructor
  · have hN1 : 1 ≤ totalParts F.length c := totalParts_pos F.length c hc hF
    cases hps : ps with
    | nil =>
      exfalso
      have h1 := hcov 1 hN1 le_rfl
      rw [hps] at h1
      cases h1
    | cons p1 ps' =>
      have hp1 := hpsmem p1 (by rw [hps]; exact List.mem_cons_self p1 ps')
      exact run_from_first F c (totalParts F.length c) fn t0 T none [] p1 ps'
        hc hT hb rfl rfl List.nodup_nil (fun q hq => absurd hq (List.not_mem_nil q))
        hp1.1 hp1.2 (List.not_mem_nil p1)
        (fun q hq => hpsmem q (by rw [hps]; exact List.mem_cons_of_mem p1 hq))
        (fun j h1 h2 => by
          have hjps := hcov j h2 h1
          rw [hps] at hjps
          rcases List.mem_cons.mp hjps with he | hm
          · exact Or.inl (by simp [he])
          · exact Or.inr hm)
  · intro draft now st pay pn htot hp hk
    unfold feed
    rw [hp]
    cases hd : jget pay keyD with
    | none => rfl
    | some bd =>
      cases hhb : hashableKey pn with
      | false => simp [hhb]
      | true => simp [hhb, hk]

/-- Witness for C5: 3-byte file, chunk size 2 (total 2), frames fed in
reverse order with a duplicate: `[2, 1, 2]`. -/
theorem c5_order_invariance_witness :
    runIters 2 5 none (initState 0)
        (frameEvents [1, 2, 3] 2 (totalParts (List.length [1, 2, 3]) 2) ['a'] 0 [2, 1, 2])
      = LoopResult.completed [1, 2, 3]
    ∧ (∀ (draft : Option (List Nat)) (now : ℚ) (st : RecvState) (pay pn : Json),
        st.total.isSome = true → jget pay keyP = some pn → hasKey st.chunks pn = true →
        feed 2 draft now st pay = st) :=
  c5_order_invariance [1, 2, 3] 2 ['a'] [2, 1, 2] 0 5
    (by decide) (by decide) (by decide) (by decide) (by decide) (by decide)

theorem isAllZero_replicate (c : Nat) : isAllZero (List.replicate c 0) = true := by
  unfold isAllZero
  rw [List.all_eq_true]
  intro x hx
  have hx0 : x = 0 := (List.eq_of_mem_replicate hx)
  simp [hx0]

/-- The draft produced by a stalled receiver holding exactly the in-range
parts of `sSet` (in ascending order) is the concatenation of per-part
blocks: the file's chunk for stored parts, `c` zero bytes for missing
non-final parts, nothing for a missing final part. -/
theorem draftBytesOf_mkChunks (F : List Nat) (c N : Nat) (sSet : List Nat)
    (hb : ∀ x ∈ F, x < 256) :
    draftBytesOf c (mkChunks F c ((seqFrom 1 N).filter (fun q => decide (q ∈ sSet)))) N
      = some (((seqFrom 1 N).map (fun i =>
          if i ∈ sSet then chunkOf F c i
          else if i = N then [] else List.replicate c 0)).flatten) := by
  refine draftGo_flatten c N _ _ ?_ N 1 (by omega) (by omega)
  intro i hi1 hiN
  rw [assocGet_mkChunks]
  by_cases his : i ∈ sSet
  · have hmem : i ∈ (seqFrom 1 N).filter (fun q => decide (q ∈ sSet)) := by
      rw [List.mem_filter]
      exact ⟨(mem_seqFrom N 1 i).mpr (by omega), by simp [his]⟩
    rw [if_pos hmem]
    show b64decode (b64encode (chunkOf F c i)) = _
    rw [b64_roundtrip _ (chunk_mem_lt F c i hb), if_pos his]
  · have hnmem : i ∉ (seqFrom 1 N).filter (fun q => decide (q ∈ sSet)) := by
      rw [List.mem_filter]
      rintro ⟨_, h2⟩
      simp at h2
      exact his h2
    rw [if_neg hnmem, if_neg his]
    by_cases hiN2 : i = N
    · rw [if_pos hiN2, if_pos hiN2]
    · rw [if_neg hiN2, if_neg hiN2]

theorem filter_seqFrom_succ (sSet : List Nat) (j : Nat) :
    (seqFrom 1 (j + 1)).filter (fun q => decide (q ∈ sSet))
      = (seqFrom 1 j).filter (fun q => decide (q ∈ sSet))
        ++ (if j + 1 ∈ sSet then [j + 1] else []) := by
  have hsplit : seqFrom 1 (j + 1) = seqFrom 1 j ++ [j + 1] := by
    rw [seqFrom_append j 1 1]
    have h2 : 1 + j = j + 1 := by omega
    rw [h2]
    rfl
  rw [hsplit, List.filter_append]
  congr 1
  by_cases hj : j + 1 ∈ sSet
  · rw [if_pos hj]
    simp [hj]
  · rw [if_neg hj]
    simp [hj]

theorem loadDraftGo_succ (c : Nat) (db : List Nat) (i k : Nat) (m : List (Json × Json)) :
    loadDraftGo c db i (k + 1) m =
      if (db.take c).isEmpty then m
      else loadDraftGo c (db.drop c) (i + 1) k
        (if isAllZero (db.take c) then m
         else if hasKey m (Json.int (Int.ofNat i)) then m
         else assocSet m (Json.int (Int.ofNat i)) (Json.str (b64encode (db.take c)))) := rfl

/-- The draft-resume loop walking the blocks of a stalled draft recovers
exactly the stored (non-all-zero) parts, in ascending order, re-encoded in
base64 — provided no stored part's chunk is entirely zero bytes. -/
theorem loadDraftGo_blocks (F : List Nat) (c N : Nat) (sSet : List Nat)
    (hc : 1 ≤ c) (hF : 1 ≤ F.length) (hN : N = totalParts F.length c)
    (hz : ∀ p ∈ sSet, isAllZero (chunkOf F c p) = false) :
    ∀ (k i : Nat), 1 ≤ i → i + k = N + 1 →
      loadDraftGo c (((seqFrom i k).map (fun j =>
          if j ∈ sSet then chunkOf F c j
          else if j = N then [] else List.replicate c 0)).flatten) i k
        (mkChunks F c ((seqFrom 1 (i - 1)).filter (fun q => decide (q ∈ sSet))))
      = mkChunks F c ((seqFrom 1 N).filter (fun q => decide (q ∈ sSet))) := by
  set blkD : Nat → List Nat := fun j =>
    if j ∈ sSet then chunkOf F c j else if j = N then [] else List.replicate c 0 with hblkD
  intro k
  induction k with
  | zero =>
    intro i hi1 hik
    have hie : i - 1 = N := by omega
    rw [hie]
    rfl
  | succ k ih =>
    intro i hi1 hik
    have hiN : i ≤ N := by omega
    have hnotin : i ∉ (seqFrom 1 (i - 1)).filter (fun q => decide (q ∈ sSet)) := by
      rw [List.mem_filter]
      rintro ⟨h1, _⟩
      have := (mem_seqFrom _ 1 i).mp h1
      omega
    have hkfalse : hasKey (mkChunks F c ((seqFrom 1 (i - 1)).filter
        (fun q => decide (q ∈ sSet)))) (Json.int (Int.ofNat i)) = false := by
      cases hb2 : hasKey (mkChunks F c ((seqFrom 1 (i - 1)).filter
          (fun q => decide (q ∈ sSet)))) (Json.int (Int.ofNat i)) with
      | false => rfl
      | true => exact absurd ((hasKey_mkChunks F c _ i).mp hb2) hnotin
    have hprefstep : (seqFrom 1 (i - 1)).filter (fun q => decide (q ∈ sSet))
        ++ (if i ∈ sSet then [i] else [])
        = (seqFrom 1 i).filter (fun q => decide (q ∈ sSet)) := by
      have h1 : i = (i - 1) + 1 := by omega
      conv_rhs => rw [h1]
      rw [filter_seqFrom_succ sSet (i - 1), ← h1]
    have hflat : ((seqFrom i (k + 1)).map blkD).flatten
        = blkD i ++ ((seqFrom (i + 1) k).map blkD).flatten := by
      rw [show seqFrom i (k + 1) = i :: seqFrom (i + 1) k from rfl, List.map_cons,
        List.flatten_cons]
    rw [loadDraftGo_succ]
    by_cases hiltN : i < N
    · have hbl : (blkD i).length = c := by
        rw [hblkD]
        dsimp only
        by_cases his : i ∈ sSet
        · rw [if_pos his]
          exact chunkOf_length_of_lt F c i hc hi1 (by omega)
        · rw [if_neg his, if_neg (by omega), List.length_replicate]
      have htake : (((seqFrom i (k + 1)).map blkD).flatten).take c = blkD i := by
        rw [hflat]
        exact take_append_len _ _ _ hbl
      have hdrop : (((seqFrom i (k + 1)).map blkD).flatten).drop c
          = ((seqFrom (i + 1) k).map blkD).flatten := by
        rw [hflat]
        exact drop_append_len _ _ _ hbl
      have hemp : ((((seqFrom i (k + 1)).map blkD).flatten).take c).isEmpty = false := by
        rw [htake]
        cases hb3 : blkD i with
        | nil =>
          rw [hb3] at hbl
          simp at hbl
          omega
        | cons a t => rfl
      rw [hemp, if_neg Bool.false_ne_true, htake, hdrop]
      by_cases his : i ∈ sSet
      · have hisz : isAllZero (blkD i) = false := by
          rw [hblkD]
          dsimp only
          rw [if_pos his]
          exact hz i his
        rw [hisz, if_neg Bool.false_ne_true, hkfalse, if_neg Bool.false_ne_true,
          assocSet_not_mem _ _ _ hkfalse]
        have hbi : blkD i = chunkOf F c i := by
          rw [hblkD]
          dsimp only
          rw [if_pos his]
        rw [hbi, ← mkChunks_append]
        have hpref : (seqFrom 1 (i - 1)).filter (fun q => decide (q ∈ sSet)) ++ [i]
            = (seqFrom 1 i).filter (fun q => decide (q ∈ sSet)) := by
          rw [← hprefstep, if_pos his]
        rw [hpref]
        have hgoal := ih (i + 1) (by omega) (by omega)
        rw [show i + 1 - 1 = i from rfl] at hgoal
        exact hgoal
      · have hisz : isAllZero (blkD i) = true := by
          rw [hblkD]
          dsimp only
          rw [if_neg his, if_neg (by omega)]
          exact isAllZero_replicate c
        rw [hisz, if_pos rfl]
        have hpref : (seqFrom 1 (i - 1)).filter (fun q => decide (q ∈ sSet))
            = (seqFrom 1 i).filter (fun q => decide (q ∈ sSet)) := by
          rw [← hprefstep, if_neg his, List.append_nil]
        rw [hpref]
        have hgoal := ih (i + 1) (by omega) (by omega)
        rw [show i + 1 - 1 = i from rfl] at hgoal
        exact hgoal
    · have hieq : i = N := by omega
      subst hieq
      have hk0 : k = 0 := by omega
      subst hk0
      have hdb : ((seqFrom i 1).map blkD).flatten = blkD i := by
        show (blkD i ++ []) = blkD i
        exact List.append_nil _
      rw [hdb]
      by_cases his : i ∈ sSet
      · have hbi : blkD i = chunkOf F c i := by
          rw [hblkD]
          dsimp only
          rw [if_pos his]
        have hlast := chunkOf_length_last F c hc hF
        rw [← hN] at hlast
        have htakeN : (blkD i).take c = blkD i := by
          rw [hbi]
          show ((F.drop ((i - 1) * c)).take c).take c = _
          rw [List.take_take, Nat.min_self]
          rfl
        have hemp : ((blkD i).take c).isEmpty = false := by
          rw [htakeN]
          cases hb3 : blkD i with
          | nil =>
            exfalso
            rw [hbi] at hb3
            have hl := hlast.2
            rw [hb3] at hl
            simp at hl
          | cons a t => rfl
        rw [hemp, if_neg Bool.false_ne_true, htakeN]
        have hisz : isAllZero (blkD i) = false := by
          rw [hbi]
          exact hz i his
        rw [hisz, if_neg Bool.false_ne_true, hkfalse, if_neg Bool.false_ne_true,
          assocSet_not_mem _ _ _ hkfalse]
        rw [hbi, ← mkChunks_append]
        have hpref : (seqFrom 1 (i - 1)).filter (fun q => decide (q ∈ sSet)) ++ [i]
            = (seqFrom 1 i).filter (fun q => decide (q ∈ sSet)) := by
          rw [← hprefstep, if_pos his]
        rw [hpref]
        rfl
      · have hbi : blkD i = [] := by
          rw [hblkD]
          dsimp only
          rw [if_neg his, if_pos rfl]
        rw [hbi]
        rw [show (([] : List Nat).take c).isEmpty = true from by simp]
        rw [if_pos rfl]
        have hpref : (seqFrom 1 (i - 1)).filter (fun q => decide (q ∈ sSet))
            = (seqFrom 1 i).filter (fun q => decide (q ∈ sSet)) := by
          rw [← hprefstep, if_neg his, List.append_nil]
        rw [hpref]

/-- Counterexample to claim C9: file `[0, 0, 1]`, chunk size 2 (total 2),
part 1 stored, gap `G = {2}`.  Part 1's chunk is `[0, 0]`, so the persisted
draft is `[0, 0]` and the resume pre-population discards it as a
placeholder; fed exactly the frame for part 2, the run ends still
collecting with only part 2 — it never reaches COMPLETE, against the
claim. -/
theorem c9_counterexample :
    draftBytesOf 2 (mkChunks [0, 0, 1] 2 [1]) 2 = some [0, 0]
    ∧ runIters 2 5 (some [0, 0]) (initState 0) (frameEvents [0, 0, 1] 2 2 ['a'] 0 [2])
        = LoopResult.running ⟨[(Json.int 2, Json.str ['A', 'Q', '=', '='])],
            some (Json.int 2), some (Json.str ['a']), 0⟩
    ∧ isComplete ⟨[(Json.int 2, Json.str ['A', 'Q', '=', '='])],
        some (Json.int 2), some (Json.str ['a']), 0⟩ = false := by
  decide

/-- Claim C9 as amended: draft/resume idempotence holds provided no stored
part's chunk consists entirely of zero bytes (the all-zero draft stride is
indistinguishable from a placeholder — spec section 9's known ambiguity).
For a transfer of file `F` interrupted with stored parts `sSet` and gap
set `G` (its persisted draft being the stalled receiver's draft bytes `D`),
a resumed receiver run that pre-populates from `D` and is fed exactly
frames for the parts of `G` reaches COMPLETE with the file bytes `F` — the
same result as one uninterrupted run fed all parts. -/
theorem c9_resume (F : List Nat) (c : Nat) (fn : List Char) (sSet gs : List Nat) (t0 T : ℚ)
    (hc : 1 ≤ c) (hF : 1 ≤ F.length) (hb : ∀ x ∈ F, x < 256) (hT : 0 ≤ T)
    (hz : ∀ p ∈ sSet, isAllZero (chunkOf F c p) = false)
    (hgs : ∀ p ∈ gs, 1 ≤ p ∧ p ≤ totalParts F.length c ∧ ¬ p ∈ sSet)
    (hgcov : ∀ p, p ≤ totalParts F.length c → 1 ≤ p → ¬ p ∈ sSet → p ∈ gs)
    (hgne : gs ≠ []) :
    ∃ D, draftBytesOf c (mkChunks F c ((seqFrom 1 (totalParts F.length c)).filter
          (fun q => decide (q ∈ sSet)))) (totalParts F.length c) = some D
      ∧ runIters c T (some D) (initState t0)
          (frameEvents F c (totalParts F.length c) fn t0 gs) = LoopResult.completed F
      ∧ runIters c T none (initState t0)
          (frameEvents F c (totalParts F.length c) fn t0 (seqFrom 1 (totalParts F.length c)))
          = LoopResult.completed F := by
  set N := totalParts F.length c with hNdef
  have hN1 : 1 ≤ N := totalParts_pos F.length c hc hF
  refine ⟨_, draftBytesOf_mkChunks F c N sSet hb, ?_, ?_⟩
  · cases hgsc : gs with
    | nil => exact absurd hgsc hgne
    | cons g1 gs' =>
      have hg1 := hgs g1 (by rw [hgsc]; exact List.mem_cons_self g1 gs')
      have hload : (match some (((seqFrom 1 N).map (fun i => if i ∈ sSet then chunkOf F c i
            else if i = N then [] else List.replicate c 0)).flatten) with
          | some db => loadDraft c [] db N
          | none => ([] : List (Json × Json)))
          = mkChunks F c ((seqFrom 1 N).filter (fun q => decide (q ∈ sSet))) :=
        loadDraftGo_blocks F c N sSet hc hF hNdef hz N 1 (by omega) (by omega)
      apply run_from_first F c N fn t0 T _ _ g1 gs' hc hT hb hNdef hload
      · exact (seqFrom_nodup N 1).filter _
      · intro q hq
        have hq2 := (mem_seqFrom N 1 q).mp (List.mem_of_mem_filter hq)
        omega
      · exact hg1.1
      · exact hg1.2.1
      · intro hcon
        have h2 := List.mem_filter.mp hcon
        simp at h2
        exact hg1.2.2 h2.2
      · intro q hq
        have h := hgs q (by rw [hgsc]; exact List.mem_cons_of_mem g1 hq)
        exact ⟨h.1, h.2.1⟩
      · intro j h1 h2
        by_cases hjs : j ∈ sSet
        · refine Or.inl (List.mem_append.mpr (Or.inl ?_))
          rw [List.mem_filter]
          exact ⟨(mem_seqFrom N 1 j).mpr (by omega), by simp [hjs]⟩
        · have hjg := hgcov j h2 h1 hjs
          rw [hgsc] at hjg
          rcases List.mem_cons.mp hjg with he | hm
          · exact Or.inl (List.mem_append.mpr (Or.inr (by simp [he])))
          · exact Or.inr hm
  · have hseq : seqFrom 1 N = 1 :: seqFrom 2 (N - 1) := by
      have h1 : N = (N - 1) + 1 := by omega
      conv_lhs => rw [h1]
      rfl
    rw [hseq]
    apply run_from_first F c N fn t0 T none [] 1 (seqFrom 2 (N - 1)) hc hT hb hNdef rfl
      List.nodup_nil (fun q hq => absurd hq (List.not_mem_nil q)) le_rfl hN1
      (List.not_mem_nil 1)
    · intro q hq
      have hq2 := (mem_seqFrom (N - 1) 2 q).mp hq
      omega
    · intro j h1 h2
      by_cases hj1 : j = 1
      · exact Or.inl (by simp [hj1])
      · exact Or.inr ((mem_seqFrom (N - 1) 2 j).mpr (by omega))

/-- Witness for the amended C9: file `[1, 2, 3]`, chunk size 2 (total 2),
part 1 stored (chunk `[1, 2]`, not all-zero), gap `{2}`. -/
theorem c9_resume_witness :
    ∃ D, draftBytesOf 2 (mkChunks [1, 2, 3] 2 ((seqFrom 1 (totalParts (List.length [1, 2, 3]) 2)).filter
          (fun q => decide (q ∈ [1])))) (totalParts (List.length [1, 2, 3]) 2) = some D
      ∧ runIters 2 5 (some D) (initState 0)
          (frameEvents [1, 2, 3] 2 (totalParts (List.length [1, 2, 3]) 2) ['a'] 0 [2])
          = LoopResult.completed [1, 2, 3]
      ∧ runIters 2 5 none (initState 0)
          (frameEvents [1, 2, 3] 2 (totalParts (List.length [1, 2, 3]) 2) ['a'] 0
            (seqFrom 1 (totalParts (List.length [1, 2, 3]) 2)))
          = LoopResult.completed [1, 2, 3] :=
  c9_resume [1, 2, 3] 2 ['a'] [1] [2] 0 5 (by decide) (by decide) (by decide) (by decide)
    (by decide) (by decide) (by decide) (by decide)

end QRT
